import Mathlib

/-!
Verification of the cache engine in `src/cache.ts` (class `Cache<K, V>`).

The embedding below follows the TypeScript source line by line:

* the backing `Map<K, V>` is modelled as an ordered association list
  (`List (K × V)`) whose list order is JavaScript `Map` insertion order;
* `Map.delete` removes the (unique) entry for a key, `Map.set` replaces
  the value in place when the key is present and appends otherwise;
* JavaScript truthiness (`if (value)`, `key && value`, `if (this.#ttl)`)
  is made explicit through a `JsModel` of truthiness functions and the
  fact that the number `0` is falsy;
* `Date.now()` is an explicit `now : Nat` argument;
* every public operation returns `Except JsErr (state × events × output)`
  where the events list records the `#emit` calls the operation performs
  and `JsErr` enumerates the `throw new Error(...)` sites plus the
  TypeError raised by `this.#ttlMap.get(key)!.ttl` when the record is
  missing.
-/

namespace CacheSpec

/-- The five cache event kinds (`CacheEvent` enum in the source). -/
inductive CacheEvent where
  | insertion
  | eviction
  | removal
  | full
  | empty
deriving DecidableEq, Repr

/-- A TTL record: `{ ttl: number; expiresAt: number }` in `#ttlMap`. -/
structure TTLRec where
  ttl : Nat
  expiresAt : Nat
deriving DecidableEq, Repr

/-- The `#stats` record of the cache. -/
structure Stats where
  hit : Nat
  miss : Nat
  eviction : Nat
  access : Nat
deriving DecidableEq, Repr

/-- Errors a cache operation can raise. -/
inductive JsErr where
  | capacityError
  | persistenceNotSet
  | typeError
deriving DecidableEq, Repr

/-- The message carried by each error (`throw new Error(message)`);
`typeError` is the runtime TypeError from dereferencing `undefined`. -/
def JsErr.message : JsErr → String
  | .capacityError => "Capacity must be greater than 0"
  | .persistenceNotSet => "Persistence is not set"
  | .typeError => "Cannot read properties of undefined"

/-- JavaScript truthiness for keys and values of the concrete K/V types. -/
structure JsModel (K V : Type) where
  tk : K → Bool
  tv : V → Bool

/-- Truthiness of `number | undefined` (`undefined` and `0` are falsy). -/
def natTruthy : Option Nat → Bool
  | none => false
  | some n => n != 0

section AList

variable {K : Type} {α : Type} [DecidableEq K]

/-- Keys of an association list, in `Map` iteration order. -/
def alKeys (l : List (K × α)) : List K := l.map Prod.fst

/-- `Map.get`: value of the first entry for `k`, if any. -/
def alFind : List (K × α) → K → Option α
  | [], _ => none
  | p :: ps, k => if p.1 = k then some p.2 else alFind ps k

/-- `Map.has`. -/
def alHas (l : List (K × α)) (k : K) : Bool := (alFind l k).isSome

/-- `Map.delete`: removes the entry for `k` (the first one, which is the
only one since a `Map` has unique keys). -/
def alErase : List (K × α) → K → List (K × α)
  | [], _ => []
  | p :: ps, k => if p.1 = k then ps else p :: alErase ps k

/-- `Map.set`: replaces in place when the key is present, appends
otherwise. -/
def alSet : List (K × α) → K → α → List (K × α)
  | [], k, a => [(k, a)]
  | p :: ps, k, a => if p.1 = k then (k, a) :: ps else p :: alSet ps k a

end AList

/-- The private state of a `Cache<K, V>` instance.  `dttl` is the
cache-wide default `#ttl`; `hasPersistence` records whether
`#persistence` is bound (its only observable role in the engine). -/
structure CacheState (K V : Type) where
  capacity : Nat
  map : List (K × V)
  ttlMap : List (K × TTLRec)
  stats : Stats
  dttl : Option Nat
  autoPersist : Bool
  hasPersistence : Bool
deriving DecidableEq, Repr

/-- An emitted event: kind plus the optional `{ key, value }` item
computed by `#emit`. -/
abbrev Ev (K V : Type) := CacheEvent × Option (K × V)

section Ops

variable {K V : Type} [DecidableEq K]

/-- The item argument `#emit` passes to handlers:
`key && value ? { key, value } : undefined`, so the pair is dropped
whenever either component is absent or JS-falsy. -/
def emitItem (J : JsModel K V) : Option K → Option V → Option (K × V)
  | some k, some v => if J.tk k && J.tv v then some (k, v) else none
  | _, _ => none

/-- `this.persist()`: throws when no persistence is bound; the adapter
call itself does not change the cache state. -/
def persistCall (s : CacheState K V) : Except JsErr Unit :=
  if s.hasPersistence then .ok () else .error .persistenceNotSet

/-- `if (this.#autoPersist) { this.persist(); }` -/
def autoPersistStep (s : CacheState K V) : Except JsErr Unit :=
  if s.autoPersist then persistCall s else .ok ()

/-- `#ttlEvict(key)`: evicts the entry when its TTL record exists and is
expired; returns whether an eviction happened. -/
def ttlEvict (J : JsModel K V) (now : Nat) (s : CacheState K V) (k : K) :
    Except JsErr (CacheState K V × List (Ev K V) × Bool) :=
  match alFind s.ttlMap k with
  | some r =>
    if now > r.expiresAt then
      let evs : List (Ev K V) :=
        [(CacheEvent.eviction, emitItem J (some k) (alFind s.map k))]
      let s' := { s with map := alErase s.map k, ttlMap := alErase s.ttlMap k }
      match autoPersistStep s' with
      | .ok _ => .ok (s', evs, true)
      | .error e => .error e
    else .ok (s, [], false)
  | none => .ok (s, [], false)

/-- The tail of a hit in `get`: auto-persist then `hit += 1`, returning
the value. -/
def getHitTail (s : CacheState K V) (evs : List (Ev K V)) (v : V) :
    Except JsErr (CacheState K V × List (Ev K V) × Option V) :=
  match autoPersistStep s with
  | .error e => .error e
  | .ok _ =>
    .ok ({ s with stats := { s.stats with hit := s.stats.hit + 1 } }, evs, some v)

/-- `get(key)`. -/
def get (J : JsModel K V) (now : Nat) (s : CacheState K V) (k : K) :
    Except JsErr (CacheState K V × List (Ev K V) × Option V) :=
  let s0 := { s with stats := { s.stats with access := s.stats.access + 1 } }
  match ttlEvict J now s0 k with
  | .error e => .error e
  | .ok (s1, evs, true) =>
    .ok ({ s1 with stats := { s1.stats with miss := s1.stats.miss + 1 } }, evs, none)
  | .ok (s1, evs, false) =>
    match alFind s1.map k with
    | some v =>
      if J.tv v then
        let s2 := { s1 with map := alErase s1.map k ++ [(k, v)] }
        if natTruthy s2.dttl then
          match alFind s2.ttlMap k with
          | some r =>
            getHitTail { s2 with ttlMap := alSet s2.ttlMap k ⟨r.ttl, now + r.ttl⟩ } evs v
          | none => .error .typeError
        else getHitTail s2 evs v
      else
        .ok ({ s1 with stats := { s1.stats with miss := s1.stats.miss + 1 } },
          evs, some v)
    | none =>
      .ok ({ s1 with stats := { s1.stats with miss := s1.stats.miss + 1 } },
        evs, none)

/-- The default eviction policy: `(cache) => cache.first!`. -/
def defaultPolicy : CacheState K V → Option K := fun s => (alKeys s.map).head?

/-- An eviction policy: receives the cache, returns the victim key
(`none` models a policy whose expression evaluates to `undefined`). -/
abbrev Policy (K V : Type) := CacheState K V → Option K

/-- The TTL recording step of `put`: per-call TTL when truthy, else the
cache-wide default when truthy, else nothing. -/
def putTtl (now : Nat) (k : K) (ttlArg : Option Nat) (s : CacheState K V) :
    CacheState K V :=
  if natTruthy ttlArg then
    { s with ttlMap := alSet s.ttlMap k ⟨ttlArg.getD 0, now + ttlArg.getD 0⟩ }
  else if natTruthy s.dttl then
    { s with ttlMap := alSet s.ttlMap k ⟨s.dttl.getD 0, now + s.dttl.getD 0⟩ }
  else s

/-- The first stage of `put`: removal of the old entry when the key is
being updated, or the policy-selected victim when the cache is full. -/
def putStep1 (J : JsModel K V) (pol : Policy K V) (s : CacheState K V) (k : K) :
    CacheState K V × List (Ev K V) :=
  if alHas s.map k then
    ({ s with map := alErase s.map k, ttlMap := alErase s.ttlMap k }, [])
  else if s.map.length = s.capacity then
    match pol s with
    | some victim =>
      ({ s with map := alErase s.map victim,
                ttlMap := alErase s.ttlMap victim,
                stats := { s.stats with eviction := s.stats.eviction + 1 } },
        [(CacheEvent.eviction, emitItem J (some victim) (alFind s.map victim))])
    | none =>
      ({ s with stats := { s.stats with eviction := s.stats.eviction + 1 } },
        [(CacheEvent.eviction, none)])
  else (s, [])

/-- The state `put` ends in when it does not throw. -/
def putFinal (J : JsModel K V) (pol : Policy K V) (now : Nat) (s : CacheState K V)
    (k : K) (v : V) (ttlArg : Option Nat) : CacheState K V :=
  putTtl now k ttlArg
    { (putStep1 J pol s k).1 with map := (putStep1 J pol s k).1.map ++ [(k, v)] }

/-- `put(key, value, ttl?)`. -/
def put (J : JsModel K V) (pol : Policy K V) (now : Nat) (s : CacheState K V)
    (k : K) (v : V) (ttlArg : Option Nat) :
    Except JsErr (CacheState K V × List (Ev K V) × Unit) :=
  let s3 := putFinal J pol now s k v ttlArg
  let evs2 := (putStep1 J pol s k).2 ++
    [(CacheEvent.insertion, emitItem J (some k) (some v))]
  match autoPersistStep s3 with
  | .error e => .error e
  | .ok _ =>
    .ok (s3,
      if s3.map.length = s3.capacity then evs2 ++ [(CacheEvent.full, none)] else evs2,
      ())

/-- `peek(key)`. -/
def peek (J : JsModel K V) (now : Nat) (s : CacheState K V) (k : K) :
    Except JsErr (CacheState K V × List (Ev K V) × Option V) :=
  match ttlEvict J now s k with
  | .error e => .error e
  | .ok (s1, evs, true) => .ok (s1, evs, none)
  | .ok (s1, evs, false) => .ok (s1, evs, alFind s1.map k)

/-- `has(key)`. -/
def has (J : JsModel K V) (now : Nat) (s : CacheState K V) (k : K) :
    Except JsErr (CacheState K V × List (Ev K V) × Bool) :=
  match ttlEvict J now s k with
  | .error e => .error e
  | .ok (s1, evs, true) => .ok (s1, evs, false)
  | .ok (s1, evs, false) => .ok (s1, evs, alHas s1.map k)

/-- `remove(key)`. -/
def remove (J : JsModel K V) (s : CacheState K V) (k : K) :
    Except JsErr (CacheState K V × List (Ev K V) × Unit) :=
  let evs : List (Ev K V) :=
    [(CacheEvent.removal, emitItem J (some k) (alFind s.map k))]
  let s1 := { s with map := alErase s.map k, ttlMap := alErase s.ttlMap k }
  match autoPersistStep s1 with
  | .error e => .error e
  | .ok _ =>
    .ok (s1,
      if s1.map.length = 0 then evs ++ [(CacheEvent.empty, none)] else evs,
      ())

/-- `clear()`.  The per-entry Removal events are emitted only when at
least one Removal handler is registered, so that flag is an input. -/
def clear (J : JsModel K V) (hasRemovalHandlers : Bool) (s : CacheState K V) :
    Except JsErr (CacheState K V × List (Ev K V) × Unit) :=
  let evs1 : List (Ev K V) :=
    if hasRemovalHandlers then
      s.map.map (fun p => (CacheEvent.removal, emitItem J (some p.1) (some p.2)))
    else []
  let s1 := { s with map := [], ttlMap := [] }
  match autoPersistStep s1 with
  | .error e => .error e
  | .ok _ => .ok (s1, evs1 ++ [(CacheEvent.empty, none)], ())

/-- The `while (this.size > this.capacity)` loop of `resize`, with fuel
(the source loop terminates whenever the policy keeps selecting present
keys).  Note it deletes from `#map` only, not from `#ttlMap`. -/
def resizeLoop (J : JsModel K V) (pol : Policy K V) :
    Nat → CacheState K V → List (Ev K V) → CacheState K V × List (Ev K V)
  | 0, s, evs => (s, evs)
  | fuel + 1, s, evs =>
    if s.capacity < s.map.length then
      match pol s with
      | some victim =>
        resizeLoop J pol fuel { s with map := alErase s.map victim }
          (evs ++ [(CacheEvent.eviction, emitItem J (some victim) (alFind s.map victim))])
      | none => resizeLoop J pol fuel s (evs ++ [(CacheEvent.eviction, none)])
    else (s, evs)

/-- `resize(capacity)`. -/
def resize (J : JsModel K V) (pol : Policy K V) (s : CacheState K V) (cap : Nat) :
    Except JsErr (CacheState K V × List (Ev K V) × Unit) :=
  if cap < 1 then .error .capacityError
  else
    let s1 := { s with capacity := cap }
    let r := resizeLoop J pol s1.map.length s1 []
    match autoPersistStep r.1 with
    | .error e => .error e
    | .ok _ => .ok (r.1, r.2, ())

/-- `restore()`: replaces `#map` wholesale with the mapping the adapter
returns (`#ttlMap` is untouched). -/
def restoreOp (s : CacheState K V) (m : List (K × V)) :
    Except JsErr (CacheState K V × List (Ev K V) × Unit) :=
  if s.hasPersistence then .ok ({ s with map := m }, [], ())
  else .error .persistenceNotSet

/-- `persist()`. -/
def persistOp (s : CacheState K V) :
    Except JsErr (CacheState K V × List (Ev K V) × Unit) :=
  if s.hasPersistence then .ok (s, [], ()) else .error .persistenceNotSet

/-- The `ttl` setter: plain assignment of the default TTL. -/
def setTtl (s : CacheState K V) (t : Option Nat) : CacheState K V :=
  { s with dttl := t }

/-- The constructor, for caches without a TTL cleanup interval. -/
def mkCache (K V : Type) (capacity : Nat) (dttl : Option Nat)
    (autoPersist : Bool) (hasPersistence : Bool) :
    Except JsErr (CacheState K V) :=
  if capacity < 1 then .error .capacityError
  else .ok ⟨capacity, [], [], ⟨0, 0, 0, 0⟩, dttl, autoPersist, hasPersistence⟩

/-- One pass of the proactive sweep over a list of keys, calling
`#ttlEvict` on each in turn (`#ttlEvict` deletes only the visited key,
so iterating the keys present at sweep start matches the live
`forEach` iteration). -/
def ttlSweepKeys (J : JsModel K V) (now : Nat) :
    List K → CacheState K V → Except JsErr (CacheState K V × List (Ev K V))
  | [], s => .ok (s, [])
  | k :: ks, s =>
    match ttlEvict J now s k with
    | .error e => .error e
    | .ok (s', evs, _) =>
      match ttlSweepKeys J now ks s' with
      | .error e => .error e
      | .ok (s'', evs') => .ok (s'', evs ++ evs')

/-- The body of the proactive TTL sweep installed by `#ttlSetCleanup`:
`this.#ttlMap.forEach((_, key) => this.#ttlEvict(key))`. -/
def ttlSweep (J : JsModel K V) (now : Nat) (s : CacheState K V) :
    Except JsErr (CacheState K V × List (Ev K V)) :=
  ttlSweepKeys J now (alKeys s.ttlMap) s

end Ops

/-- A public operation, for reasoning about operation sequences. -/
inductive Op (K V : Type) where
  | put (now : Nat) (k : K) (v : V) (ttlArg : Option Nat)
  | get (now : Nat) (k : K)
  | peek (now : Nat) (k : K)
  | has (now : Nat) (k : K)
  | remove (k : K)
  | clear (hasRemovalHandlers : Bool)
  | resize (cap : Nat)
  | restore (m : List (K × V))
deriving DecidableEq

/-- Whether an operation is `restore`. -/
def Op.isRestore {K V : Type} : Op K V → Bool
  | .restore _ => true
  | _ => false

/-- Whether an operation is `resize`. -/
def Op.isResize {K V : Type} : Op K V → Bool
  | .resize _ => true
  | _ => false

section Run

variable {K V : Type} [DecidableEq K]

/-- Run one public operation, discarding its return value. -/
def runOp (J : JsModel K V) (pol : Policy K V) :
    Op K V → CacheState K V → Except JsErr (CacheState K V × List (Ev K V))
  | .put now k v t, s => (put J pol now s k v t).map (fun r => (r.1, r.2.1))
  | .get now k, s => (get J now s k).map (fun r => (r.1, r.2.1))
  | .peek now k, s => (peek J now s k).map (fun r => (r.1, r.2.1))
  | .has now k, s => (has J now s k).map (fun r => (r.1, r.2.1))
  | .remove k, s => (remove J s k).map (fun r => (r.1, r.2.1))
  | .clear hrh, s => (clear J hrh s).map (fun r => (r.1, r.2.1))
  | .resize cap, s => (resize J pol s cap).map (fun r => (r.1, r.2.1))
  | .restore m, s => (restoreOp s m).map (fun r => (r.1, r.2.1))

/-- Run a sequence of public operations. -/
def runSeq (J : JsModel K V) (pol : Policy K V) :
    List (Op K V) → CacheState K V → Except JsErr (CacheState K V)
  | [], s => .ok s
  | o :: os, s =>
    match runOp J pol o s with
    | .error e => .error e
    | .ok (s', _) => runSeq J pol os s'

end Run

/-- The concrete JS model used in examples: string keys (truthy iff
non-empty) and integer values (truthy iff non-zero). -/
def JInt : JsModel String Int := ⟨fun s => s != "", fun v => v != 0⟩

section Props

variable {K V : Type} [DecidableEq K]

/-- Spec invariant 1: `0 ≤ size ≤ capacity` and `capacity ≥ 1`
(sizes are naturals, so the lower bound is implicit). -/
def SizeInv (s : CacheState K V) : Prop :=
  1 ≤ s.capacity ∧ s.map.length ≤ s.capacity

instance (s : CacheState K V) : Decidable (SizeInv s) := by
  unfold SizeInv; infer_instance

/-- The §4.2 policy contract: on a non-empty cache the policy selects a
key that is currently present. -/
def PolPresent (pol : Policy K V) : Prop :=
  ∀ s : CacheState K V, s.map ≠ [] → ∃ k, pol s = some k ∧ alHas s.map k = true

/-- Spec invariant 2: every TTL record belongs to a present key, and no
key has more than one record. -/
def TtlSync (s : CacheState K V) : Prop :=
  (∀ k ∈ alKeys s.ttlMap, k ∈ alKeys s.map) ∧ (alKeys s.ttlMap).Nodup

instance (s : CacheState K V) : Decidable (TtlSync s) := by
  unfold TtlSync; infer_instance

/-- The key has no TTL record that is already expired at `now`. -/
def NotExpired (s : CacheState K V) (k : K) (now : Nat) : Prop :=
  ∀ rec, alFind s.ttlMap k = some rec → ¬ now > rec.expiresAt

end Props

/-- Handler registration (`on`): the new handler is appended to the
kind's list.  Handlers are identified by opaque ids. -/
def onRegister (hs : List Nat) (h : Nat) : List Nat := hs ++ [h]

/-- The dispatch loop of `#emit`: each registered handler, in list
order, is invoked with the event kind and the item computed by
`emitItem`. -/
def dispatch {K V : Type} (hs : List Nat) (e : Ev K V) : List (Nat × Ev K V) :=
  hs.map (fun h => (h, e))

/-! ### Association-list lemmas (the `Map` model) -/

section ALemmas

variable {K α : Type} [DecidableEq K]

omit [DecidableEq K] in
theorem alKeys_nil : alKeys ([] : List (K × α)) = [] := rfl

omit [DecidableEq K] in
theorem alKeys_cons (p : K × α) (ps : List (K × α)) :
    alKeys (p :: ps) = p.1 :: alKeys ps := rfl

theorem alHas_iff_mem {l : List (K × α)} {k : K} :
    alHas l k = true ↔ k ∈ alKeys l := by
  induction l with
  | nil => simp [alHas, alFind, alKeys]
  | cons p ps ih =>
    by_cases h : p.1 = k
    · simp [alHas, alFind, alKeys, h]
    · simpa [alHas, alFind, alKeys, h, Ne.symm h] using ih

theorem alErase_sublist (l : List (K × α)) (k : K) : (alErase l k).Sublist l := by
  induction l with
  | nil => simp [alErase]
  | cons p ps ih =>
    by_cases h : p.1 = k
    · simp only [alErase, h, if_true]
      exact List.sublist_cons_self p ps
    · simpa [alErase, h] using ih.cons₂ p

theorem alKeys_alErase_sublist (l : List (K × α)) (k : K) :
    (alKeys (alErase l k)).Sublist (alKeys l) :=
  (alErase_sublist l k).map Prod.fst

theorem length_alErase {l : List (K × α)} {k : K} (h : alHas l k = true) :
    (alErase l k).length + 1 = l.length := by
  induction l with
  | nil => simp [alHas, alFind] at h
  | cons p ps ih =>
    by_cases hp : p.1 = k
    · simp [alErase, hp]
    · have h' : alHas ps k = true := by simpa [alHas, alFind, hp] using h
      simpa [alErase, hp] using ih h'

theorem alErase_cons_eq {p : K × α} {ps : List (K × α)} {k : K} (h : p.1 = k) :
    alErase (p :: ps) k = ps := by
  simp [alErase, h]

theorem alErase_cons_ne {p : K × α} {ps : List (K × α)} {k : K} (h : ¬ p.1 = k) :
    alErase (p :: ps) k = p :: alErase ps k := by
  simp [alErase, h]

theorem mem_keys_alErase_of_ne {l : List (K × α)} {k k' : K} (hne : k' ≠ k)
    (hm : k' ∈ alKeys l) : k' ∈ alKeys (alErase l k) := by
  induction l with
  | nil => simp [alKeys] at hm
  | cons p ps ih =>
    rw [alKeys_cons, List.mem_cons] at hm
    by_cases hp : p.1 = k
    · rcases hm with h1 | h2
      · exact absurd (h1.trans hp) hne
      · rw [alErase_cons_eq hp]; exact h2
    · rw [alErase_cons_ne hp, alKeys_cons, List.mem_cons]
      rcases hm with h1 | h2
      · exact Or.inl h1
      · exact Or.inr (ih h2)

theorem not_mem_keys_alErase_self {l : List (K × α)} {k : K}
    (hnd : (alKeys l).Nodup) : k ∉ alKeys (alErase l k) := by
  induction l with
  | nil => simp [alErase, alKeys]
  | cons p ps ih =>
    rw [alKeys_cons, List.nodup_cons] at hnd
    by_cases hp : p.1 = k
    · rw [alErase_cons_eq hp]
      intro hmem
      exact hnd.1 (hp ▸ hmem)
    · rw [alErase_cons_ne hp, alKeys_cons, List.mem_cons]
      rintro (h1 | h2)
      · exact hp h1.symm
      · exact ih hnd.2 h2

theorem nodup_keys_alErase {l : List (K × α)} (k : K)
    (hnd : (alKeys l).Nodup) : (alKeys (alErase l k)).Nodup :=
  (alKeys_alErase_sublist l k).nodup hnd

theorem alKeys_alSet (l : List (K × α)) (k : K) (a : α) :
    alKeys (alSet l k a) =
      if k ∈ alKeys l then alKeys l else alKeys l ++ [k] := by
  induction l with
  | nil => simp [alSet, alKeys]
  | cons p ps ih =>
    by_cases hp : p.1 = k
    · subst hp
      simp [alSet, alKeys_cons, List.mem_cons]
    · have hne : ¬ k = p.1 := fun h => hp h.symm
      by_cases hm : k ∈ alKeys ps
      · rw [if_pos (by rw [alKeys_cons]; exact List.mem_cons_of_mem _ hm)]
        calc alKeys (alSet (p :: ps) k a)
            = p.1 :: alKeys (alSet ps k a) := by simp [alSet, hp, alKeys_cons]
          _ = p.1 :: alKeys ps := by rw [ih, if_pos hm]
          _ = alKeys (p :: ps) := rfl
      · have hni : k ∉ alKeys (p :: ps) := by
          rw [alKeys_cons, List.mem_cons]
          rintro (h | h)
          · exact hne h
          · exact hm h
        rw [if_neg hni]
        calc alKeys (alSet (p :: ps) k a)
            = p.1 :: alKeys (alSet ps k a) := by simp [alSet, hp, alKeys_cons]
          _ = p.1 :: (alKeys ps ++ [k]) := by rw [ih, if_neg hm]
          _ = alKeys (p :: ps) ++ [k] := rfl

theorem nodup_keys_alSet {l : List (K × α)} (k : K) (a : α)
    (hnd : (alKeys l).Nodup) : (alKeys (alSet l k a)).Nodup := by
  rw [alKeys_alSet]
  by_cases hm : k ∈ alKeys l
  · simpa [hm] using hnd
  · simp only [hm, if_false]
    refine List.Nodup.append hnd (List.nodup_singleton k) ?_
    intro x hx hxk
    rw [List.mem_singleton] at hxk
    subst hxk
    exact hm hx

theorem mem_keys_alSet {l : List (K × α)} {k k' : K} {a : α}
    (h : k' ∈ alKeys (alSet l k a)) : k' ∈ alKeys l ∨ k' = k := by
  rw [alKeys_alSet] at h
  by_cases hm : k ∈ alKeys l
  · simp [hm] at h; exact Or.inl h
  · simp [hm] at h; exact h

end ALemmas

/-! ### Per-operation case lemmas -/

section OpLemmas

variable {K V : Type} [DecidableEq K] {J : JsModel K V} {pol : Policy K V}
variable {s : CacheState K V} {k : K} {now : Nat}

omit [DecidableEq K] in
theorem autoPersistStep_ok {s : CacheState K V}
    (h : s.autoPersist = false ∨ s.hasPersistence = true) :
    autoPersistStep s = .ok () := by
  rcases h with h | h <;> simp [autoPersistStep, persistCall, h]

omit [DecidableEq K] in
theorem autoPersistStep_error {s : CacheState K V} (h1 : s.autoPersist = true)
    (h2 : s.hasPersistence = false) :
    autoPersistStep s = .error .persistenceNotSet := by
  simp [autoPersistStep, persistCall, h1, h2]

theorem ttlEvict_cases {r} (h : ttlEvict J now s k = .ok r) :
    (r = (s, ([] : List (Ev K V)), false) ∧ NotExpired s k now) ∨
    (∃ rec, alFind s.ttlMap k = some rec ∧ now > rec.expiresAt ∧
      r = ({ s with map := alErase s.map k, ttlMap := alErase s.ttlMap k },
        [(CacheEvent.eviction, emitItem J (some k) (alFind s.map k))], true)) := by
  simp only [ttlEvict] at h
  split at h
  next rec hf =>
    split at h
    next hexp =>
      split at h
      next u hap =>
        injection h with h
        right
        exact ⟨rec, hf, hexp, h.symm⟩
      next e hap => cases h
    next hexp =>
      injection h with h
      left
      refine ⟨h.symm, ?_⟩
      intro rec' hrec'
      rw [hf] at hrec'
      injection hrec' with hrec'
      rw [← hrec']
      exact hexp
  next hf =>
    injection h with h
    left
    refine ⟨h.symm, ?_⟩
    intro rec hrec
    rw [hf] at hrec
    cases hrec

/-- When `ttlEvict` reports an eviction, the state and events are
pinned down. -/
theorem ttlEvict_evicted {r} (h : ttlEvict J now s k = .ok r) (hb : r.2.2 = true) :
    ∃ rec, alFind s.ttlMap k = some rec ∧ now > rec.expiresAt ∧
      r = ({ s with map := alErase s.map k, ttlMap := alErase s.ttlMap k },
        [(CacheEvent.eviction, emitItem J (some k) (alFind s.map k))], true) := by
  rcases ttlEvict_cases h with ⟨hr, _⟩ | hr
  · rw [hr] at hb; cases hb
  · exact hr

/-- Exhaustive case analysis of a non-throwing `get`: the TTL-expired
path, a miss on an absent key, a falsy present value (counted as a
miss, no promotion), a truthy hit without a default TTL (promotion, no
refresh), or a truthy hit with a default TTL (promotion plus refresh
from the record's own `ttl`). -/
theorem get_ok_cases {out} (h : get J now s k = .ok out) :
    (∃ rec, alFind s.ttlMap k = some rec ∧ now > rec.expiresAt ∧
      out = ({ s with
               map := alErase s.map k
               ttlMap := alErase s.ttlMap k
               stats := { s.stats with
                          access := s.stats.access + 1
                          miss := s.stats.miss + 1 } },
        [(CacheEvent.eviction, emitItem J (some k) (alFind s.map k))], none)) ∨
    (NotExpired s k now ∧ alFind s.map k = none ∧
      out = ({ s with
               stats := { s.stats with
                          access := s.stats.access + 1
                          miss := s.stats.miss + 1 } }, [], none)) ∨
    (∃ v, NotExpired s k now ∧ alFind s.map k = some v ∧ J.tv v = false ∧
      out = ({ s with
               stats := { s.stats with
                          access := s.stats.access + 1
                          miss := s.stats.miss + 1 } }, [], some v)) ∨
    (∃ v, NotExpired s k now ∧ alFind s.map k = some v ∧ J.tv v = true ∧
      natTruthy s.dttl = false ∧
      out = ({ s with
               map := alErase s.map k ++ [(k, v)]
               stats := { s.stats with
                          access := s.stats.access + 1
                          hit := s.stats.hit + 1 } }, [], some v)) ∨
    (∃ v rec, NotExpired s k now ∧ alFind s.map k = some v ∧ J.tv v = true ∧
      natTruthy s.dttl = true ∧ alFind s.ttlMap k = some rec ∧
      out = ({ s with
               map := alErase s.map k ++ [(k, v)]
               ttlMap := alSet s.ttlMap k ⟨rec.ttl, now + rec.ttl⟩
               stats := { s.stats with
                          access := s.stats.access + 1
                          hit := s.stats.hit + 1 } }, [], some v)) := by
  simp only [get] at h
  split at h
  next e hte => cases h
  next s1 evs hte =>
    obtain ⟨rec, hf, hexp, hr⟩ := ttlEvict_evicted hte rfl
    simp only [Prod.mk.injEq] at hr
    obtain ⟨hs1, hevs, -⟩ := hr
    injection h with h
    left
    refine ⟨rec, hf, hexp, ?_⟩
    rw [← h, hs1, hevs]
  next s1 evs hte =>
    have hcases := ttlEvict_cases hte
    rcases hcases with ⟨hr, hne⟩ | ⟨rec, _, _, hr⟩
    swap
    · simp only [Prod.mk.injEq] at hr
      exact absurd hr.2.2 (by simp)
    simp only [Prod.mk.injEq] at hr
    obtain ⟨hs1, hevs, -⟩ := hr
    subst hs1
    subst hevs
    split at h
    next v hfv =>
      split at h
      next htv =>
        split at h
        next hdttl =>
          split at h
          next rec hrec =>
            simp only [getHitTail] at h
            split at h
            next e hap => cases h
            next u hap =>
              injection h with h
              refine Or.inr (Or.inr (Or.inr (Or.inr ⟨v, rec, hne, hfv, htv, hdttl, hrec, ?_⟩)))
              exact h ▸ rfl
          next hrec => cases h
        next hdttl =>
          simp only [getHitTail] at h
          split at h
          next e hap => cases h
          next u hap =>
            injection h with h
            refine Or.inr (Or.inr (Or.inr (Or.inl ⟨v, hne, hfv, htv, ?_, ?_⟩)))
            · simpa using hdttl
            · exact h ▸ rfl
      next htv =>
        injection h with h
        refine Or.inr (Or.inr (Or.inl ⟨v, hne, hfv, ?_, ?_⟩))
        · simpa using htv
        · exact h ▸ rfl
    next hfv =>
      injection h with h
      refine Or.inr (Or.inl ⟨hne, hfv, ?_⟩)
      exact h ▸ rfl

/-- A non-throwing `peek` either evicts an expired entry or leaves the
state untouched and reads the map. -/
theorem peek_ok_cases {out} (h : peek J now s k = .ok out) :
    (∃ rec, alFind s.ttlMap k = some rec ∧ now > rec.expiresAt ∧
      out = ({ s with map := alErase s.map k, ttlMap := alErase s.ttlMap k },
        [(CacheEvent.eviction, emitItem J (some k) (alFind s.map k))], none)) ∨
    (NotExpired s k now ∧ out = (s, [], alFind s.map k)) := by
  simp only [peek] at h
  split at h
  next e hte => cases h
  next s1 evs hte =>
    obtain ⟨rec, hf, hexp, hr⟩ := ttlEvict_evicted hte rfl
    simp only [Prod.mk.injEq] at hr
    obtain ⟨hs1, hevs, -⟩ := hr
    injection h with h
    left
    exact ⟨rec, hf, hexp, by rw [← h, hs1, hevs]⟩
  next s1 evs hte =>
    rcases ttlEvict_cases hte with ⟨hr, hne⟩ | ⟨rec, _, _, hr⟩
    · simp only [Prod.mk.injEq] at hr
      obtain ⟨hs1, hevs, -⟩ := hr
      injection h with h
      right
      refine ⟨hne, ?_⟩
      rw [← h, hs1, hevs]
    · simp only [Prod.mk.injEq] at hr
      exact absurd hr.2.2 (by simp)

/-- A non-throwing `has` either evicts an expired entry (answering
`false`) or leaves the state untouched and tests membership. -/
theorem has_ok_cases {out} (h : has J now s k = .ok out) :
    (∃ rec, alFind s.ttlMap k = some rec ∧ now > rec.expiresAt ∧
      out = ({ s with map := alErase s.map k, ttlMap := alErase s.ttlMap k },
        [(CacheEvent.eviction, emitItem J (some k) (alFind s.map k))], false)) ∨
    (NotExpired s k now ∧ out = (s, [], alHas s.map k)) := by
  simp only [has] at h
  split at h
  next e hte => cases h
  next s1 evs hte =>
    obtain ⟨rec, hf, hexp, hr⟩ := ttlEvict_evicted hte rfl
    simp only [Prod.mk.injEq] at hr
    obtain ⟨hs1, hevs, -⟩ := hr
    injection h with h
    left
    exact ⟨rec, hf, hexp, by rw [← h, hs1, hevs]⟩
  next s1 evs hte =>
    rcases ttlEvict_cases hte with ⟨hr, hne⟩ | ⟨rec, _, _, hr⟩
    · simp only [Prod.mk.injEq] at hr
      obtain ⟨hs1, hevs, -⟩ := hr
      injection h with h
      right
      refine ⟨hne, ?_⟩
      rw [← h, hs1, hevs]
    · simp only [Prod.mk.injEq] at hr
      exact absurd hr.2.2 (by simp)

/-- Exhaustive case analysis of the first stage of `put`. -/
theorem putStep1_cases (J : JsModel K V) (pol : Policy K V)
    (s : CacheState K V) (k : K) :
    (alHas s.map k = true ∧
      putStep1 J pol s k =
        ({ s with map := alErase s.map k, ttlMap := alErase s.ttlMap k }, [])) ∨
    (alHas s.map k = false ∧ s.map.length = s.capacity ∧ ∃ victim,
      pol s = some victim ∧
      putStep1 J pol s k =
        ({ s with
           map := alErase s.map victim
           ttlMap := alErase s.ttlMap victim
           stats := { s.stats with eviction := s.stats.eviction + 1 } },
          [(CacheEvent.eviction, emitItem J (some victim) (alFind s.map victim))])) ∨
    (alHas s.map k = false ∧ s.map.length = s.capacity ∧ pol s = none ∧
      putStep1 J pol s k =
        ({ s with stats := { s.stats with eviction := s.stats.eviction + 1 } },
          [(CacheEvent.eviction, none)])) ∨
    (alHas s.map k = false ∧ ¬ s.map.length = s.capacity ∧
      putStep1 J pol s k = (s, [])) := by
  by_cases hhas : alHas s.map k
  · left
    exact ⟨hhas, by simp [putStep1, hhas]⟩
  · have hhas' : alHas s.map k = false := by simpa using hhas
    by_cases hlen : s.map.length = s.capacity
    · cases hpol : pol s with
      | some victim =>
        refine Or.inr (Or.inl ⟨hhas', hlen, victim, rfl, ?_⟩)
        simp [putStep1, hhas', hlen, hpol]
      | none =>
        refine Or.inr (Or.inr (Or.inl ⟨hhas', hlen, rfl, ?_⟩))
        simp [putStep1, hhas', hlen, hpol]

    · refine Or.inr (Or.inr (Or.inr ⟨hhas', hlen, ?_⟩))
      simp [putStep1, hhas', hlen]

theorem putTtl_fields (now : Nat) (k : K) (t : Option Nat) (s : CacheState K V) :
    (putTtl now k t s).capacity = s.capacity ∧
    (putTtl now k t s).map = s.map ∧
    (putTtl now k t s).stats = s.stats ∧
    (putTtl now k t s).dttl = s.dttl ∧
    (putTtl now k t s).autoPersist = s.autoPersist ∧
    (putTtl now k t s).hasPersistence = s.hasPersistence := by
  unfold putTtl
  split
  · exact ⟨rfl, rfl, rfl, rfl, rfl, rfl⟩
  · split
    · exact ⟨rfl, rfl, rfl, rfl, rfl, rfl⟩
    · exact ⟨rfl, rfl, rfl, rfl, rfl, rfl⟩

theorem putTtl_ttlMap_cases (now : Nat) (k : K) (t : Option Nat)
    (s : CacheState K V) :
    (putTtl now k t s).ttlMap = s.ttlMap ∨
    ∃ r : TTLRec, (putTtl now k t s).ttlMap = alSet s.ttlMap k r := by
  unfold putTtl
  split
  · right; exact ⟨_, rfl⟩
  · split
    · right; exact ⟨_, rfl⟩
    · left; rfl

theorem putStep1_fields (J : JsModel K V) (pol : Policy K V)
    (s : CacheState K V) (k : K) :
    (putStep1 J pol s k).1.capacity = s.capacity ∧
    (putStep1 J pol s k).1.dttl = s.dttl ∧
    (putStep1 J pol s k).1.autoPersist = s.autoPersist ∧
    (putStep1 J pol s k).1.hasPersistence = s.hasPersistence := by
  unfold putStep1
  split
  · exact ⟨rfl, rfl, rfl, rfl⟩
  · split
    · split
      · exact ⟨rfl, rfl, rfl, rfl⟩
      · exact ⟨rfl, rfl, rfl, rfl⟩
    · exact ⟨rfl, rfl, rfl, rfl⟩

theorem putFinal_map (J : JsModel K V) (pol : Policy K V) (now : Nat)
    (s : CacheState K V) (k : K) (v : V) (t : Option Nat) :
    (putFinal J pol now s k v t).map = (putStep1 J pol s k).1.map ++ [(k, v)] := by
  unfold putFinal
  exact (putTtl_fields _ _ _ _).2.1

theorem putFinal_fields (J : JsModel K V) (pol : Policy K V) (now : Nat)
    (s : CacheState K V) (k : K) (v : V) (t : Option Nat) :
    (putFinal J pol now s k v t).capacity = s.capacity ∧
    (putFinal J pol now s k v t).dttl = s.dttl ∧
    (putFinal J pol now s k v t).autoPersist = s.autoPersist ∧
    (putFinal J pol now s k v t).hasPersistence = s.hasPersistence ∧
    (putFinal J pol now s k v t).stats = (putStep1 J pol s k).1.stats := by
  unfold putFinal
  refine ⟨?_, ?_, ?_, ?_, ?_⟩
  · exact ((putTtl_fields _ _ _ _).1).trans (putStep1_fields J pol s k).1
  · exact ((putTtl_fields _ _ _ _).2.2.2.1).trans (putStep1_fields J pol s k).2.1
  · exact ((putTtl_fields _ _ _ _).2.2.2.2.1).trans (putStep1_fields J pol s k).2.2.1
  · exact ((putTtl_fields _ _ _ _).2.2.2.2.2).trans (putStep1_fields J pol s k).2.2.2
  · exact (putTtl_fields _ _ _ _).2.2.1

/-- A non-throwing `put` ends in `putFinal`, emits the stage-one events
followed by `Insertion` and then `Full` exactly when the final size
equals the capacity. -/
theorem put_ok_elim {pol : Policy K V} {v : V} {t : Option Nat} {out}
    (h : put J pol now s k v t = .ok out) :
    out.1 = putFinal J pol now s k v t ∧
    out.2.1 =
      (if (putFinal J pol now s k v t).map.length = (putFinal J pol now s k v t).capacity
       then ((putStep1 J pol s k).2 ++
          [(CacheEvent.insertion, emitItem J (some k) (some v))]) ++
          [(CacheEvent.full, none)]
       else (putStep1 J pol s k).2 ++
          [(CacheEvent.insertion, emitItem J (some k) (some v))]) ∧
    autoPersistStep (putFinal J pol now s k v t) = .ok () := by
  simp only [put] at h
  split at h
  next e hap => cases h
  next u hap =>
    injection h with h
    exact ⟨h ▸ rfl, h ▸ rfl, hap⟩

/-- A non-throwing `remove` erases the key from both maps, emits
`Removal`, and emits `Empty` exactly when the resulting size is 0. -/
theorem remove_ok_elim {out} (h : remove J s k = .ok out) :
    out.1 = { s with map := alErase s.map k, ttlMap := alErase s.ttlMap k } ∧
    out.2.1 =
      (if (alErase s.map k).length = 0
       then [(CacheEvent.removal, emitItem J (some k) (alFind s.map k)),
             (CacheEvent.empty, none)]
       else [(CacheEvent.removal, emitItem J (some k) (alFind s.map k))]) ∧
    autoPersistStep { s with map := alErase s.map k, ttlMap := alErase s.ttlMap k } = .ok () := by
  simp only [remove] at h
  split at h
  next e hap => cases h
  next u hap =>
    injection h with h
    refine ⟨h ▸ rfl, h ▸ ?_, hap⟩
    split
    next h0 => rfl
    next h0 => rfl

omit [DecidableEq K] in
/-- A non-throwing `clear` empties both maps and always emits `Empty`
last. -/
theorem clear_ok_elim {hrh : Bool} {out} (h : clear J hrh s = .ok out) :
    out.1 = { s with map := [], ttlMap := [] } ∧
    out.2.1 =
      (if hrh then
        s.map.map (fun p => (CacheEvent.removal, emitItem J (some p.1) (some p.2)))
       else []) ++ [(CacheEvent.empty, none)] := by
  simp only [clear] at h
  split at h
  next e hap => cases h
  next u hap =>
    injection h with h
    exact ⟨h ▸ rfl, h ▸ rfl⟩

theorem resizeLoop_fields (J : JsModel K V) (pol : Policy K V) (fuel : Nat)
    (s : CacheState K V) (evs : List (Ev K V)) :
    (resizeLoop J pol fuel s evs).1.capacity = s.capacity ∧
    (resizeLoop J pol fuel s evs).1.stats = s.stats ∧
    (resizeLoop J pol fuel s evs).1.ttlMap = s.ttlMap ∧
    (resizeLoop J pol fuel s evs).1.dttl = s.dttl ∧
    (resizeLoop J pol fuel s evs).1.autoPersist = s.autoPersist ∧
    (resizeLoop J pol fuel s evs).1.hasPersistence = s.hasPersistence := by
  induction fuel generalizing s evs with
  | zero => exact ⟨rfl, rfl, rfl, rfl, rfl, rfl⟩
  | succ n ih =>
    unfold resizeLoop
    split
    · split
      · exact ih _ _
      · exact ih _ _
    · exact ⟨rfl, rfl, rfl, rfl, rfl, rfl⟩

theorem resizeLoop_events (J : JsModel K V) (pol : Policy K V) (fuel : Nat)
    (s : CacheState K V) (evs : List (Ev K V)) :
    ∀ e ∈ (resizeLoop J pol fuel s evs).2, e ∈ evs ∨ e.1 = CacheEvent.eviction := by
  induction fuel generalizing s evs with
  | zero => exact fun e he => Or.inl he
  | succ n ih =>
    unfold resizeLoop
    split
    · split
      · intro e he
        rcases ih _ _ e he with hmem | hev
        · rcases List.mem_append.mp hmem with hmem | hmem
          · exact Or.inl hmem
          · right
            rw [List.mem_singleton] at hmem
            rw [hmem]
        · exact Or.inr hev
      · intro e he
        rcases ih _ _ e he with hmem | hev
        · rcases List.mem_append.mp hmem with hmem | hmem
          · exact Or.inl hmem
          · right
            rw [List.mem_singleton] at hmem
            rw [hmem]
        · exact Or.inr hev
    · exact fun e he => Or.inl he

/-- Under the policy contract, the resize loop drives the size down to
at most the capacity. -/
theorem resizeLoop_length {pol : Policy K V} (hpol : PolPresent pol)
    (fuel : Nat) (s : CacheState K V) (evs : List (Ev K V))
    (hfuel : s.map.length ≤ s.capacity + fuel) :
    (resizeLoop J pol fuel s evs).1.map.length ≤ s.capacity := by
  induction fuel generalizing s evs with
  | zero => simpa using hfuel
  | succ n ih =>
    unfold resizeLoop
    split
    next hgt =>
      have hne : s.map ≠ [] := by
        intro hnil
        rw [hnil] at hgt
        simp at hgt
      obtain ⟨vic, hvic, hhas⟩ := hpol s hne
      rw [hvic]
      have hlen : (alErase s.map vic).length + 1 = s.map.length := length_alErase hhas
      have hrec := ih { s with map := alErase s.map vic } (evs ++
        [(CacheEvent.eviction, emitItem J (some vic) (alFind s.map vic))])
        (by simp; omega)
      simpa using hrec
    next hle =>
      simpa using Nat.le_of_not_lt hle

/-- A non-throwing `resize` demands a positive capacity and ends in the
loop's final state. -/
theorem resize_ok_elim {cap : Nat} {out} (h : resize J pol s cap = .ok out) :
    cap ≠ 0 ∧
    out.1 = (resizeLoop J pol s.map.length { s with capacity := cap } []).1 ∧
    out.2.1 = (resizeLoop J pol s.map.length { s with capacity := cap } []).2 := by
  simp only [resize] at h
  split at h
  next hcap => cases h
  next hcap =>
    split at h
    next e hap => cases h
    next u hap =>
      injection h with h
      exact ⟨by omega, h ▸ rfl, h ▸ rfl⟩

omit [DecidableEq K] in
theorem restoreOp_ok_elim {m : List (K × V)} {out} (h : restoreOp s m = .ok out) :
    s.hasPersistence = true ∧ out = ({ s with map := m }, [], ()) := by
  simp only [restoreOp] at h
  split at h
  next hp =>
    injection h with h
    exact ⟨hp, h.symm⟩
  next hp => cases h

end OpLemmas

/-! ### Invariant preservation -/

section Invariants

variable {K V : Type} [DecidableEq K] {J : JsModel K V} {pol : Policy K V}
variable {s : CacheState K V} {k : K} {now : Nat}

theorem alHas_of_find {l : List (K × V)} {k : K} {v : V}
    (h : alFind l k = some v) : alHas l k = true := by
  simp [alHas, h]

omit [DecidableEq K] in
theorem alKeys_append {l1 l2 : List (K × V)} :
    alKeys (l1 ++ l2) = alKeys l1 ++ alKeys l2 := by
  simp [alKeys]

/-- Erasing a key from both the store and the TTL map preserves the
subset-and-nodup relation between their key sets. -/
theorem sync_erase_both {ml : List (K × V)} {tl : List (K × TTLRec)} {x : K}
    (hsub : ∀ k ∈ alKeys tl, k ∈ alKeys ml) (hnd : (alKeys tl).Nodup) :
    (∀ k ∈ alKeys (alErase tl x), k ∈ alKeys (alErase ml x)) ∧
    (alKeys (alErase tl x)).Nodup := by
  constructor
  · intro k hk
    have hkin : k ∈ alKeys tl := (alKeys_alErase_sublist tl x).subset hk
    have hne : k ≠ x := by
      intro he
      subst he
      exact not_mem_keys_alErase_self hnd hk
    exact mem_keys_alErase_of_ne hne (hsub k hkin)
  · exact nodup_keys_alErase _ hnd

/-- Setting the record of a key that is present in the store preserves
the relation. -/
theorem sync_alSet {ml : List (K × V)} {tl : List (K × TTLRec)} {k : K}
    {r : TTLRec} (hsub : ∀ k' ∈ alKeys tl, k' ∈ alKeys ml)
    (hnd : (alKeys tl).Nodup) (hk : k ∈ alKeys ml) :
    (∀ k' ∈ alKeys (alSet tl k r), k' ∈ alKeys ml) ∧
    (alKeys (alSet tl k r)).Nodup := by
  constructor
  · intro k' hk'
    rcases mem_keys_alSet hk' with h | h
    · exact hsub k' h
    · exact h ▸ hk
  · exact nodup_keys_alSet _ _ hnd

theorem sizeInv_get {out} (h : get J now s k = .ok out) (hs : SizeInv s) :
    SizeInv out.1 := by
  obtain ⟨hcap, hlen⟩ := hs
  rcases get_ok_cases h with
      ⟨rec, hf, hexp, hout⟩ | ⟨hne, hfv, hout⟩ | ⟨v, hne, hfv, htv, hout⟩ |
      ⟨v, hne, hfv, htv, hdttl, hout⟩ | ⟨v, rec, hne, hfv, htv, hdttl, hrec, hout⟩ <;>
    rw [hout] <;> refine ⟨hcap, ?_⟩
  · exact le_trans ((alErase_sublist s.map k).length_le) hlen
  · exact hlen
  · exact hlen
  · have := length_alErase (alHas_of_find hfv)
    simp only [List.length_append, List.length_cons, List.length_nil]
    omega
  · have := length_alErase (alHas_of_find hfv)
    simp only [List.length_append, List.length_cons, List.length_nil]
    omega

theorem sizeInv_peek {out} (h : peek J now s k = .ok out) (hs : SizeInv s) :
    SizeInv out.1 := by
  obtain ⟨hcap, hlen⟩ := hs
  rcases peek_ok_cases h with ⟨rec, hf, hexp, hout⟩ | ⟨hne, hout⟩ <;>
    rw [hout] <;> refine ⟨hcap, ?_⟩
  · exact le_trans ((alErase_sublist s.map k).length_le) hlen
  · exact hlen

theorem sizeInv_has {out} (h : has J now s k = .ok out) (hs : SizeInv s) :
    SizeInv out.1 := by
  obtain ⟨hcap, hlen⟩ := hs
  rcases has_ok_cases h with ⟨rec, hf, hexp, hout⟩ | ⟨hne, hout⟩ <;>
    rw [hout] <;> refine ⟨hcap, ?_⟩
  · exact le_trans ((alErase_sublist s.map k).length_le) hlen
  · exact hlen

theorem sizeInv_put (hpol : PolPresent pol) {v : V} {t : Option Nat} {out}
    (h : put J pol now s k v t = .ok out) (hs : SizeInv s) : SizeInv out.1 := by
  obtain ⟨hcap, hlen⟩ := hs
  obtain ⟨hfin, -, -⟩ := put_ok_elim h
  rw [hfin]
  have hmap := putFinal_map J pol now s k v t
  have hflds := putFinal_fields J pol now s k v t
  refine ⟨hflds.1 ▸ hcap, ?_⟩
  rw [hflds.1, hmap, List.length_append, List.length_cons, List.length_nil]
  rcases putStep1_cases J pol s k with
      ⟨hhas, hstep⟩ | ⟨hhas, hfull, victim, hvic, hstep⟩ |
      ⟨hhas, hfull, hpnone, hstep⟩ | ⟨hhas, hnfull, hstep⟩
  · rw [hstep]
    have := length_alErase hhas
    simp only
    omega
  · rw [hstep]
    have hvhas : alHas s.map victim = true := by
      have hne : s.map ≠ [] := by
        intro hnil
        rw [hnil] at hfull
        simp at hfull
        omega
      obtain ⟨w, hw, hwhas⟩ := hpol s hne
      rw [hvic] at hw
      injection hw with hw
      rw [hw]
      exact hwhas
    have := length_alErase hvhas
    simp only
    omega
  · exfalso
    have hne : s.map ≠ [] := by
      intro hnil
      rw [hnil] at hfull
      simp at hfull
      omega
    obtain ⟨w, hw, -⟩ := hpol s hne
    rw [hpnone] at hw
    cases hw
  · rw [hstep]
    simp only
    omega

theorem sizeInv_remove {out} (h : remove J s k = .ok out) (hs : SizeInv s) :
    SizeInv out.1 := by
  obtain ⟨hcap, hlen⟩ := hs
  obtain ⟨hout, -, -⟩ := remove_ok_elim h
  rw [hout]
  exact ⟨hcap, le_trans ((alErase_sublist s.map k).length_le) hlen⟩

omit [DecidableEq K] in
theorem sizeInv_clear {hrh : Bool} {out} (h : clear J hrh s = .ok out)
    (hs : SizeInv s) : SizeInv out.1 := by
  obtain ⟨hout, -⟩ := clear_ok_elim h
  rw [hout]
  exact ⟨hs.1, by simp⟩

theorem sizeInv_resize (hpol : PolPresent pol) {cap : Nat} {out}
    (h : resize J pol s cap = .ok out) (_hs : SizeInv s) : SizeInv out.1 := by
  obtain ⟨hcap, hout, -⟩ := resize_ok_elim h
  rw [hout]
  constructor
  · rw [(resizeLoop_fields J pol _ _ _).1]
    simp only
    omega
  · have hb := resizeLoop_length (J := J) hpol s.map.length
      { s with capacity := cap } [] (by simp)
    calc (resizeLoop J pol s.map.length { s with capacity := cap } []).1.map.length
        ≤ ({ s with capacity := cap } : CacheState K V).capacity := hb
      _ = (resizeLoop J pol s.map.length { s with capacity := cap } []).1.capacity :=
          ((resizeLoop_fields J pol _ _ _).1).symm

theorem ttlSync_get {out} (h : get J now s k = .ok out) (hs : TtlSync s) :
    TtlSync out.1 := by
  obtain ⟨hsub, hnd⟩ := hs
  rcases get_ok_cases h with
      ⟨rec, hf, hexp, hout⟩ | ⟨hne, hfv, hout⟩ | ⟨v, hne, hfv, htv, hout⟩ |
      ⟨v, hne, hfv, htv, hdttl, hout⟩ | ⟨v, rec, hne, hfv, htv, hdttl, hrec, hout⟩ <;>
    rw [hout]
  · exact sync_erase_both hsub hnd
  · exact ⟨hsub, hnd⟩
  · exact ⟨hsub, hnd⟩
  · refine ⟨?_, hnd⟩
    intro k' hk'
    rw [alKeys_append]
    by_cases hkk : k' = k
    · subst hkk
      simp [alKeys]
    · exact List.mem_append_left _ (mem_keys_alErase_of_ne hkk (hsub k' hk'))
  · have hk : k ∈ alKeys (alErase s.map k ++ [(k, v)]) := by
      rw [alKeys_append]
      simp [alKeys]
    have := sync_alSet (r := ⟨rec.ttl, now + rec.ttl⟩)
      (fun k' hk' => by
        rw [alKeys_append]
        by_cases hkk : k' = k
        · subst hkk
          simp [alKeys]
        · exact List.mem_append_left _ (mem_keys_alErase_of_ne hkk (hsub k' hk')))
      hnd hk
    exact this

theorem ttlSync_peek {out} (h : peek J now s k = .ok out) (hs : TtlSync s) :
    TtlSync out.1 := by
  obtain ⟨hsub, hnd⟩ := hs
  rcases peek_ok_cases h with ⟨rec, hf, hexp, hout⟩ | ⟨hne, hout⟩ <;> rw [hout]
  · exact sync_erase_both hsub hnd
  · exact ⟨hsub, hnd⟩

theorem ttlSync_has {out} (h : has J now s k = .ok out) (hs : TtlSync s) :
    TtlSync out.1 := by
  obtain ⟨hsub, hnd⟩ := hs
  rcases has_ok_cases h with ⟨rec, hf, hexp, hout⟩ | ⟨hne, hout⟩ <;> rw [hout]
  · exact sync_erase_both hsub hnd
  · exact ⟨hsub, hnd⟩

theorem ttlSync_put {v : V} {t : Option Nat} {out}
    (h : put J pol now s k v t = .ok out) (hs : TtlSync s) : TtlSync out.1 := by
  obtain ⟨hsub, hnd⟩ := hs
  obtain ⟨hfin, -, -⟩ := put_ok_elim h
  rw [hfin]
  have hmid : ∀ s1 : CacheState K V,
      (∀ k' ∈ alKeys s1.ttlMap, k' ∈ alKeys s1.map) → (alKeys s1.ttlMap).Nodup →
      TtlSync (putTtl now k t { s1 with map := s1.map ++ [(k, v)] }) := by
    intro s1 hsub1 hnd1
    have hksub : ∀ k' ∈ alKeys s1.ttlMap, k' ∈ alKeys (s1.map ++ [(k, v)]) :=
      fun k' hk' => by
        rw [alKeys_append]
        exact List.mem_append_left _ (hsub1 k' hk')
    have hkmem : k ∈ alKeys (s1.map ++ [(k, v)]) := by
      rw [alKeys_append]
      simp [alKeys]
    rcases putTtl_ttlMap_cases now k t { s1 with map := s1.map ++ [(k, v)] } with
        hcase | ⟨r, hcase⟩
    · constructor
      · rw [hcase, (putTtl_fields now k t _).2.1]
        exact hksub
      · rw [hcase]
        exact hnd1
    · have := sync_alSet (r := r) hksub hnd1 hkmem
      constructor
      · rw [hcase, (putTtl_fields now k t _).2.1]
        exact this.1
      · rw [hcase]
        exact this.2
  unfold putFinal
  rcases putStep1_cases J pol s k with
      ⟨hhas, hstep⟩ | ⟨hhas, hfull, victim, hvic, hstep⟩ |
      ⟨hhas, hfull, hpnone, hstep⟩ | ⟨hhas, hnfull, hstep⟩ <;> rw [hstep]
  · have hsync := sync_erase_both (x := k) hsub hnd
    exact hmid _ hsync.1 hsync.2
  · have hsync := sync_erase_both (x := victim) hsub hnd
    exact hmid _ hsync.1 hsync.2
  · exact hmid _ hsub hnd
  · exact hmid _ hsub hnd

theorem ttlSync_remove {out} (h : remove J s k = .ok out) (hs : TtlSync s) :
    TtlSync out.1 := by
  obtain ⟨hsub, hnd⟩ := hs
  obtain ⟨hout, -, -⟩ := remove_ok_elim h
  rw [hout]
  exact sync_erase_both hsub hnd

omit [DecidableEq K] in
theorem ttlSync_clear {hrh : Bool} {out} (h : clear J hrh s = .ok out)
    (_hs : TtlSync s) : TtlSync out.1 := by
  obtain ⟨hout, -⟩ := clear_ok_elim h
  rw [hout]
  exact ⟨by simp [alKeys], by simp [alKeys]⟩

end Invariants

/-! ### Sequence-level preservation -/

section SeqLemmas

variable {K V : Type} [DecidableEq K] {J : JsModel K V} {pol : Policy K V}

theorem except_map_ok {α β γ : Type} {f : α → β} {x : Except γ α} {b : β}
    (h : x.map f = .ok b) : ∃ a, x = .ok a ∧ f a = b := by
  cases x with
  | ok a =>
    refine ⟨a, rfl, ?_⟩
    injection h with h
  | error e => cases h

theorem runOp_sizeInv (hpol : PolPresent pol) {o : Op K V}
    (ho : o.isRestore = false) {s s' : CacheState K V} {evs : List (Ev K V)}
    (h : runOp J pol o s = .ok (s', evs)) (hs : SizeInv s) : SizeInv s' := by
  cases o with
  | put now k v t =>
    obtain ⟨r, hr, hfr⟩ := except_map_ok h
    have hmain := sizeInv_put hpol hr hs
    simp only [Prod.mk.injEq] at hfr
    exact hfr.1 ▸ hmain
  | get now k =>
    obtain ⟨r, hr, hfr⟩ := except_map_ok h
    have hmain := sizeInv_get hr hs
    simp only [Prod.mk.injEq] at hfr
    exact hfr.1 ▸ hmain
  | peek now k =>
    obtain ⟨r, hr, hfr⟩ := except_map_ok h
    have hmain := sizeInv_peek hr hs
    simp only [Prod.mk.injEq] at hfr
    exact hfr.1 ▸ hmain
  | has now k =>
    obtain ⟨r, hr, hfr⟩ := except_map_ok h
    have hmain := sizeInv_has hr hs
    simp only [Prod.mk.injEq] at hfr
    exact hfr.1 ▸ hmain
  | remove k =>
    obtain ⟨r, hr, hfr⟩ := except_map_ok h
    have hmain := sizeInv_remove hr hs
    simp only [Prod.mk.injEq] at hfr
    exact hfr.1 ▸ hmain
  | clear hrh =>
    obtain ⟨r, hr, hfr⟩ := except_map_ok h
    have hmain := sizeInv_clear hr hs
    simp only [Prod.mk.injEq] at hfr
    exact hfr.1 ▸ hmain
  | resize cap =>
    obtain ⟨r, hr, hfr⟩ := except_map_ok h
    have hmain := sizeInv_resize hpol hr hs
    simp only [Prod.mk.injEq] at hfr
    exact hfr.1 ▸ hmain
  | restore m => simp [Op.isRestore] at ho

theorem runOp_ttlSync {o : Op K V} (ho : o.isRestore = false)
    (ho' : o.isResize = false) {s s' : CacheState K V} {evs : List (Ev K V)}
    (h : runOp J pol o s = .ok (s', evs)) (hs : TtlSync s) : TtlSync s' := by
  cases o with
  | put now k v t =>
    obtain ⟨r, hr, hfr⟩ := except_map_ok h
    have hmain := ttlSync_put hr hs
    simp only [Prod.mk.injEq] at hfr
    exact hfr.1 ▸ hmain
  | get now k =>
    obtain ⟨r, hr, hfr⟩ := except_map_ok h
    have hmain := ttlSync_get hr hs
    simp only [Prod.mk.injEq] at hfr
    exact hfr.1 ▸ hmain
  | peek now k =>
    obtain ⟨r, hr, hfr⟩ := except_map_ok h
    have hmain := ttlSync_peek hr hs
    simp only [Prod.mk.injEq] at hfr
    exact hfr.1 ▸ hmain
  | has now k =>
    obtain ⟨r, hr, hfr⟩ := except_map_ok h
    have hmain := ttlSync_has hr hs
    simp only [Prod.mk.injEq] at hfr
    exact hfr.1 ▸ hmain
  | remove k =>
    obtain ⟨r, hr, hfr⟩ := except_map_ok h
    have hmain := ttlSync_remove hr hs
    simp only [Prod.mk.injEq] at hfr
    exact hfr.1 ▸ hmain
  | clear hrh =>
    obtain ⟨r, hr, hfr⟩ := except_map_ok h
    have hmain := ttlSync_clear hr hs
    simp only [Prod.mk.injEq] at hfr
    exact hfr.1 ▸ hmain
  | resize cap => simp [Op.isResize] at ho'
  | restore m => simp [Op.isRestore] at ho

theorem runSeq_sizeInv (hpol : PolPresent pol) {ops : List (Op K V)}
    {s s' : CacheState K V} (hops : ∀ o ∈ ops, o.isRestore = false)
    (h : runSeq J pol ops s = .ok s') (hs : SizeInv s) : SizeInv s' := by
  induction ops generalizing s with
  | nil =>
    injection h with h
    rw [← h]
    exact hs
  | cons o os ih =>
    simp only [runSeq] at h
    split at h
    next e hro => cases h
    next s1 evs hro =>
      exact ih (fun o' ho' => hops o' (List.mem_cons_of_mem _ ho')) h
        (runOp_sizeInv hpol (hops o (List.mem_cons_self o os)) hro hs)

theorem runSeq_ttlSync {ops : List (Op K V)} {s s' : CacheState K V}
    (hops : ∀ o ∈ ops, o.isRestore = false ∧ o.isResize = false)
    (h : runSeq J pol ops s = .ok s') (hs : TtlSync s) : TtlSync s' := by
  induction ops generalizing s with
  | nil =>
    injection h with h
    rw [← h]
    exact hs
  | cons o os ih =>
    simp only [runSeq] at h
    split at h
    next e hro => cases h
    next s1 evs hro =>
      exact ih (fun o' ho' => hops o' (List.mem_cons_of_mem _ ho')) h
        (runOp_ttlSync (hops o (List.mem_cons_self o os)).1
          (hops o (List.mem_cons_self o os)).2 hro hs)

end SeqLemmas

/-- The default policy satisfies the §4.2 contract: on a non-empty
cache it returns the first (least-recently-touched) key, which is
present. -/
theorem defaultPolicy_present {K V : Type} [DecidableEq K] :
    PolPresent (defaultPolicy : Policy K V) := by
  intro s hs
  match hmap : s.map with
  | [] => exact absurd hmap hs
  | p :: ps =>
    refine ⟨p.1, ?_, ?_⟩
    · simp [defaultPolicy, hmap, alKeys]
    · rw [alHas_iff_mem]
      simp [alKeys]

section MoreOpLemmas

variable {K V : Type} [DecidableEq K] {J : JsModel K V} {pol : Policy K V}
variable {s : CacheState K V} {k : K} {now : Nat}

/-- `#ttlEvict` is a no-op on a key with no expired record. -/
theorem ttlEvict_fresh (hne : NotExpired s k now) :
    ttlEvict J now s k = .ok (s, [], false) := by
  unfold ttlEvict
  cases hf : alFind s.ttlMap k with
  | none => rfl
  | some rec =>
    simp only
    rw [if_neg (hne rec hf)]

omit [DecidableEq K] in
theorem autoPersistStep_ok_elim {s : CacheState K V} {u : Unit}
    (h : autoPersistStep s = .ok u) :
    s.autoPersist = false ∨ s.hasPersistence = true := by
  by_cases hap : s.autoPersist
  · by_cases hp : s.hasPersistence
    · exact Or.inr hp
    · rw [autoPersistStep_error hap (by simpa using hp)] at h
      cases h
  · exact Or.inl (by simpa using hap)

/-- Every event emitted by the first stage of `put` is an `Eviction`. -/
theorem putStep1_events (J : JsModel K V) (pol : Policy K V)
    (s : CacheState K V) (k : K) :
    ∀ e ∈ (putStep1 J pol s k).2, e.1 = CacheEvent.eviction := by
  rcases putStep1_cases J pol s k with
      ⟨-, hstep⟩ | ⟨-, -, victim, -, hstep⟩ | ⟨-, -, -, hstep⟩ | ⟨-, -, hstep⟩ <;>
    rw [hstep] <;> intro e he
  · cases he
  · rw [List.mem_singleton] at he
    rw [he]
  · rw [List.mem_singleton] at he
    rw [he]
  · cases he

/-- `#ttlEvict` never touches the stats record. -/
theorem ttlEvict_ok_stats {r} (h : ttlEvict J now s k = .ok r) :
    r.1.stats = s.stats := by
  rcases ttlEvict_cases h with ⟨hr, -⟩ | ⟨rec, -, -, hr⟩ <;> rw [hr]

/-- Every event emitted by `#ttlEvict` is an `Eviction`. -/
theorem ttlEvict_ok_events {r} (h : ttlEvict J now s k = .ok r) :
    ∀ e ∈ r.2.1, e.1 = CacheEvent.eviction := by
  rcases ttlEvict_cases h with ⟨hr, -⟩ | ⟨rec, -, -, hr⟩ <;> rw [hr] <;> intro e he
  · cases he
  · rw [List.mem_singleton] at he
    rw [he]

/-- A sweep pass never touches the stats record. -/
theorem ttlSweepKeys_stats {ks : List K} {out}
    (h : ttlSweepKeys J now ks s = .ok out) : out.1.stats = s.stats := by
  induction ks generalizing s out with
  | nil =>
    injection h with h
    rw [← h]
  | cons k ks ih =>
    simp only [ttlSweepKeys] at h
    split at h
    next e hte => cases h
    next s' evs b hte =>
      split at h
      next e hsw => cases h
      next s'' evs' hsw =>
        injection h with h
        rw [← h]
        exact (ih hsw).trans (ttlEvict_ok_stats hte)

/-- Every event emitted during a sweep pass is an `Eviction`. -/
theorem ttlSweepKeys_events {ks : List K} {out}
    (h : ttlSweepKeys J now ks s = .ok out) :
    ∀ e ∈ out.2, e.1 = CacheEvent.eviction := by
  induction ks generalizing s out with
  | nil =>
    injection h with h
    rw [← h]
    intro e he
    cases he
  | cons k ks ih =>
    simp only [ttlSweepKeys] at h
    split at h
    next e hte => cases h
    next s' evs b hte =>
      split at h
      next e hsw => cases h
      next s'' evs' hsw =>
        injection h with h
        rw [← h]
        intro e he
        rcases List.mem_append.mp he with he1 | he1
        · exact ttlEvict_ok_events hte e he1
        · exact ih hsw e he1

end MoreOpLemmas

/-! ### Claim theorems -/

/-- C1 counterexample: the claim as stated is false — `restore()`
adopts the adapter's mapping wholesale, so on a capacity-1 cache an
adapter returning two entries leaves `size = 2 > capacity = 1` after
`restore` returns successfully. -/
theorem c1_restore_counterexample :
    restoreOp (K := String) (V := Int)
        ⟨1, [], [], ⟨0, 0, 0, 0⟩, none, false, true⟩ [("a", 1), ("b", 2)] =
      .ok (⟨1, [("a", 1), ("b", 2)], [], ⟨0, 0, 0, 0⟩, none, false, true⟩, [], ()) ∧
    ¬ SizeInv (⟨1, [("a", 1), ("b", 2)], [], ⟨0, 0, 0, 0⟩, none, false, true⟩ :
        CacheState String Int) := by
  constructor
  · rfl
  · decide

/-- C1 (amended): for every cache whose eviction policy selects a
present key (the default policy qualifies) and every sequence of the
public operations put/get/peek/has/remove/clear/resize — excluding
`restore`, which the counterexample shows can overfill the cache —
every operation that returns leaves `1 ≤ capacity` and
`size ≤ capacity`. -/
theorem c1_size_invariant {K V : Type} [DecidableEq K] (J : JsModel K V)
    (pol : Policy K V) (hpol : PolPresent pol) (ops : List (Op K V))
    (hops : ∀ o ∈ ops, o.isRestore = false) (s0 s' : CacheState K V)
    (hs0 : SizeInv s0) (h : runSeq J pol ops s0 = .ok s') : SizeInv s' :=
  runSeq_sizeInv hpol hops h hs0

/-- C1 witness: a concrete run (puts, a get, an eviction, a shrinking
resize, a remove and a clear) ending in a state satisfying the
invariant. -/
theorem c1_size_invariant_witness :
    SizeInv (⟨1, [], [], ⟨1, 0, 1, 1⟩, none, false, false⟩ : CacheState String Int) :=
  c1_size_invariant JInt defaultPolicy defaultPolicy_present
    [Op.put 0 "a" 1 none, Op.put 0 "b" 2 none, Op.get 0 "a", Op.put 0 "c" 3 none,
     Op.resize 1, Op.remove "c", Op.clear true]
    (by decide) ⟨2, [], [], ⟨0, 0, 0, 0⟩, none, false, false⟩ _ (by decide) rfl

/-- C5 counterexample: the claim as stated is false — `resize` deletes
evicted keys from the store but not from the TTL map, so after a
shrinking resize the evicted key "a" is absent from the store yet still
has a TTL record. -/
theorem c5_resize_counterexample :
    resize JInt defaultPolicy
        ⟨2, [("a", 1), ("b", 2)], [("a", ⟨100, 100⟩)], ⟨0, 0, 0, 0⟩, none, false, false⟩ 1 =
      .ok (⟨1, [("b", 2)], [("a", ⟨100, 100⟩)], ⟨0, 0, 0, 0⟩, none, false, false⟩,
        [(CacheEvent.eviction, some ("a", 1))], ()) ∧
    ¬ TtlSync (⟨1, [("b", 2)], [("a", ⟨100, 100⟩)], ⟨0, 0, 0, 0⟩, none, false, false⟩ :
        CacheState String Int) := by
  constructor
  · rfl
  · decide

/-- C5 (amended): after every operation in any sequence of
put/get/peek/has/remove/clear — excluding `resize`, which the
counterexample shows leaves orphan TTL records, and `restore`, which
replaces the store without touching the TTL map — every TTL record
belongs to a present key and no key has more than one record. -/
theorem c5_ttl_sync_invariant {K V : Type} [DecidableEq K] (J : JsModel K V)
    (pol : Policy K V) (ops : List (Op K V))
    (hops : ∀ o ∈ ops, o.isRestore = false ∧ o.isResize = false)
    (s0 s' : CacheState K V) (hs0 : TtlSync s0)
    (h : runSeq J pol ops s0 = .ok s') : TtlSync s' :=
  runSeq_ttlSync hops h hs0

/-- C5 witness: a run with a per-call TTL insertion, a default
insertion, and a TTL-refreshing read, ending with the TTL map in sync
with the store. -/
theorem c5_ttl_sync_invariant_witness :
    TtlSync (⟨2, [("b", 2), ("a", 1)], [("a", ⟨100, 100⟩)], ⟨1, 0, 0, 1⟩,
      none, false, false⟩ : CacheState String Int) :=
  c5_ttl_sync_invariant JInt defaultPolicy
    [Op.put 0 "a" 1 (some 100), Op.put 5 "b" 2 none, Op.get 10 "a"]
    (by decide) ⟨2, [], [], ⟨0, 0, 0, 0⟩, none, false, false⟩ _ (by decide) rfl

/-- C2: under the default eviction policy, a `put` of a fresh key into
a full cache evicts exactly the least-recently-touched key — the
resulting store is the old one minus its first entry, with the new
entry appended last. -/
theorem c2_put_evicts_lru {K V : Type} [DecidableEq K] (J : JsModel K V)
    (now : Nat) (s : CacheState K V) (k : K) (v : V) (k0 : K) (v0 : V)
    (rest : List (K × V)) (hmap : s.map = (k0, v0) :: rest)
    (hfull : s.map.length = s.capacity)
    (hfresh : alHas s.map k = false)
    (hap : s.autoPersist = false) :
    ∃ out, put J defaultPolicy now s k v none = .ok out ∧
      out.1.map = rest ++ [(k, v)] := by
  have hpol : defaultPolicy s = some k0 := by
    simp [defaultPolicy, hmap, alKeys]
  have herase : alErase s.map k0 = rest := by
    rw [hmap]
    exact alErase_cons_eq rfl
  have hstep : (putStep1 J defaultPolicy s k).1.map = rest := by
    rcases putStep1_cases J defaultPolicy s k with
        ⟨hhas, hstep⟩ | ⟨hhas, hfull', victim, hvic, hstep⟩ |
        ⟨hhas, hfull', hpnone, hstep⟩ | ⟨hhas, hnfull, hstep⟩
    · rw [hhas] at hfresh
      cases hfresh
    · rw [hpol] at hvic
      injection hvic with hvic
      rw [hstep]
      simp only
      rw [← hvic]
      exact herase
    · rw [hpol] at hpnone
      cases hpnone
    · exact absurd hfull hnfull
  have hfinmap : (putFinal J defaultPolicy now s k v none).map = rest ++ [(k, v)] := by
    rw [putFinal_map, hstep]
  have hfinap : (putFinal J defaultPolicy now s k v none).autoPersist = false :=
    (putFinal_fields J defaultPolicy now s k v none).2.2.1.trans hap
  have hok : autoPersistStep (putFinal J defaultPolicy now s k v none) = .ok () :=
    autoPersistStep_ok (Or.inl hfinap)
  cases hput : put J defaultPolicy now s k v none with
  | error e =>
    rw [put] at hput
    rw [hok] at hput
    cases hput
  | ok out =>
    obtain ⟨h1, -, -⟩ := put_ok_elim hput
    refine ⟨out, rfl, ?_⟩
    rw [h1]
    exact hfinmap

/-- C2 witness: the spec's example — capacity 2; put a→1, put b→2,
get a, then put c→3 evicts exactly b, leaving a (older) and c (last). -/
theorem c2_put_evicts_lru_witness :
    ∃ out, put JInt defaultPolicy 0
        ⟨2, [("b", 2), ("a", 1)], [], ⟨1, 0, 0, 1⟩, none, false, false⟩ "c" 3 none =
        .ok out ∧
      out.1.map = [("a", 1)] ++ [("c", 3)] :=
  c2_put_evicts_lru JInt 0
    ⟨2, [("b", 2), ("a", 1)], [], ⟨1, 0, 0, 1⟩, none, false, false⟩ "c" 3 "b" 2
    [("a", 1)] rfl (by decide) (by decide) rfl

/-- C3 counterexample: a TTL-driven eviction during `get` removes the
entry and emits an Eviction event, yet the stats eviction counter stays
at 0, so "every eviction increments the eviction counter" is false. -/
theorem c3_ttl_eviction_not_counted :
    get JInt 200 ⟨1, [("a", 1)], [("a", ⟨100, 100⟩)], ⟨0, 0, 0, 0⟩, none, false, false⟩ "a" =
      .ok (⟨1, [], [], ⟨0, 1, 0, 1⟩, none, false, false⟩,
        [(CacheEvent.eviction, some ("a", 1))], none) ∧
    (⟨1, [], [], ⟨0, 1, 0, 1⟩, none, false, false⟩ :
      CacheState String Int).stats.eviction = 0 :=
  ⟨rfl, rfl⟩

/-- C3 (amended): only the policy-driven eviction inside `put` bumps
the eviction counter — a `put` of a fresh key into a full cache
increments it by exactly one and any other `put` leaves it unchanged —
while `get`, `peek` and `has` (including their reactive TTL
evictions), `#ttlEvict` itself, the proactive sweep, and `resize`
never change it (the last five leave the whole stats record
unchanged). -/
theorem c3_eviction_counter {K V : Type} [DecidableEq K] (J : JsModel K V)
    (pol : Policy K V) :
    (∀ (now : Nat) (s : CacheState K V) (k : K) out,
      get J now s k = .ok out → out.1.stats.eviction = s.stats.eviction) ∧
    (∀ (s : CacheState K V) (cap : Nat) out,
      resize J pol s cap = .ok out → out.1.stats = s.stats) ∧
    (∀ (now : Nat) (s : CacheState K V) (k : K) (v : V) (t : Option Nat) out,
      alHas s.map k = false → s.map.length = s.capacity →
      put J pol now s k v t = .ok out →
      out.1.stats.eviction = s.stats.eviction + 1) ∧
    (∀ (now : Nat) (s : CacheState K V) (k : K) (v : V) (t : Option Nat) out,
      alHas s.map k = true ∨ ¬ s.map.length = s.capacity →
      put J pol now s k v t = .ok out →
      out.1.stats.eviction = s.stats.eviction) ∧
    (∀ (now : Nat) (s : CacheState K V) (k : K) out,
      peek J now s k = .ok out → out.1.stats = s.stats) ∧
    (∀ (now : Nat) (s : CacheState K V) (k : K) out,
      has J now s k = .ok out → out.1.stats = s.stats) ∧
    (∀ (now : Nat) (s : CacheState K V) (k : K) r,
      ttlEvict J now s k = .ok r → r.1.stats = s.stats) ∧
    (∀ (now : Nat) (s : CacheState K V) out,
      ttlSweep J now s = .ok out → out.1.stats = s.stats) := by
  refine ⟨?_, ?_, ?_, ?_, ?_, ?_, ?_, ?_⟩
  · intro now s k out h
    rcases get_ok_cases h with
        ⟨rec, hf, hexp, hout⟩ | ⟨hne, hfv, hout⟩ | ⟨v, hne, hfv, htv, hout⟩ |
        ⟨v, hne, hfv, htv, hdttl, hout⟩ | ⟨v, rec, hne, hfv, htv, hdttl, hrec, hout⟩ <;>
      rw [hout]
  · intro s cap out h
    obtain ⟨hcap, hout, -⟩ := resize_ok_elim h
    rw [hout, (resizeLoop_fields J pol _ _ _).2.1]
  · intro now s k v t out hhas hfull h
    obtain ⟨hfin, -, -⟩ := put_ok_elim h
    rw [hfin, (putFinal_fields J pol now s k v t).2.2.2.2]
    rcases putStep1_cases J pol s k with
        ⟨hhas', hstep⟩ | ⟨-, -, victim, -, hstep⟩ | ⟨-, -, -, hstep⟩ | ⟨-, hnfull, hstep⟩
    · rw [hhas'] at hhas
      cases hhas
    · rw [hstep]
    · rw [hstep]
    · exact absurd hfull hnfull
  · intro now s k v t out hside h
    obtain ⟨hfin, -, -⟩ := put_ok_elim h
    rw [hfin, (putFinal_fields J pol now s k v t).2.2.2.2]
    rcases putStep1_cases J pol s k with
        ⟨hhas', hstep⟩ | ⟨hhas', hfull, victim, -, hstep⟩ |
        ⟨hhas', hfull, -, hstep⟩ | ⟨-, -, hstep⟩
    · rw [hstep]
    · rcases hside with hside | hside
      · rw [hhas'] at hside
        cases hside
      · exact absurd hfull hside
    · rcases hside with hside | hside
      · rw [hhas'] at hside
        cases hside
      · exact absurd hfull hside
    · rw [hstep]
  · intro now s k out h
    rcases peek_ok_cases h with ⟨rec, hf, hexp, hout⟩ | ⟨-, hout⟩ <;> rw [hout]
  · intro now s k out h
    rcases has_ok_cases h with ⟨rec, hf, hexp, hout⟩ | ⟨-, hout⟩ <;> rw [hout]
  · intro now s k r h
    exact ttlEvict_ok_stats h
  · intro now s out h
    exact ttlSweepKeys_stats h

/-- C3 witness: an evicting `put` on a full capacity-1 cache increments
the counter from 0 to 1. -/
theorem c3_eviction_counter_witness :
    ((⟨1, [("b", 2)], [], ⟨0, 0, 1, 0⟩, none, false, false⟩ :
        CacheState String Int)).stats.eviction =
      (⟨1, [("a", 1)], [], ⟨0, 0, 0, 0⟩, none, false, false⟩ :
        CacheState String Int).stats.eviction + 1 :=
  (c3_eviction_counter JInt defaultPolicy).2.2.1 0
    ⟨1, [("a", 1)], [], ⟨0, 0, 0, 0⟩, none, false, false⟩ "b" 2 none
    (⟨1, [("b", 2)], [], ⟨0, 0, 1, 0⟩, none, false, false⟩,
      [(CacheEvent.eviction, some ("a", 1)), (CacheEvent.insertion, some ("b", 2)),
       (CacheEvent.full, none)], ())
    (by decide) rfl rfl

/-- C4 counterexample: with only a per-call TTL (no cache-wide default),
a successful `get` does NOT reset the expiry: the entry inserted at 0
with ttl=100 and read at +50 keeps `expiresAt = 100` and is already
absent at +120, where the claim demands it still be present. -/
theorem c4_per_call_ttl_not_refreshed :
    get JInt 50 ⟨1, [("a", 1)], [("a", ⟨100, 100⟩)], ⟨0, 0, 0, 0⟩, none, false, false⟩ "a" =
      .ok (⟨1, [("a", 1)], [("a", ⟨100, 100⟩)], ⟨1, 0, 0, 1⟩, none, false, false⟩,
        [], some 1) ∧
    has JInt 120 ⟨1, [("a", 1)], [("a", ⟨100, 100⟩)], ⟨1, 0, 0, 1⟩, none, false, false⟩ "a" =
      .ok (⟨1, [], [], ⟨1, 0, 0, 1⟩, none, false, false⟩,
        [(CacheEvent.eviction, some ("a", 1))], false) :=
  ⟨rfl, rfl⟩

/-- C4 (amended): `get` refreshes an entry's expiry only when a nonzero
cache-wide default TTL is set, and then to `now + (the record's own
ttl)`; with no (or zero) default TTL `get` leaves the TTL map
untouched even for keys carrying a per-call TTL, and `peek`/`has`
never change the state of a non-expired key at all. -/
theorem c4_ttl_refresh {K V : Type} [DecidableEq K] (J : JsModel K V) :
    (∀ (now : Nat) (s : CacheState K V) (k : K) out,
      natTruthy s.dttl = false → NotExpired s k now →
      get J now s k = .ok out → out.1.ttlMap = s.ttlMap) ∧
    (∀ (now : Nat) (s : CacheState K V) (k : K) (v : V) (rec : TTLRec) out,
      natTruthy s.dttl = true → alFind s.map k = some v → J.tv v = true →
      alFind s.ttlMap k = some rec → ¬ now > rec.expiresAt →
      get J now s k = .ok out →
      out.1.ttlMap = alSet s.ttlMap k ⟨rec.ttl, now + rec.ttl⟩) ∧
    (∀ (now : Nat) (s : CacheState K V) (k : K) out,
      NotExpired s k now → peek J now s k = .ok out → out.1 = s) ∧
    (∀ (now : Nat) (s : CacheState K V) (k : K) out,
      NotExpired s k now → has J now s k = .ok out → out.1 = s) := by
  refine ⟨?_, ?_, ?_, ?_⟩
  · intro now s k out hdttl hne h
    rcases get_ok_cases h with
        ⟨rec, hf, hexp, hout⟩ | ⟨-, hfv, hout⟩ | ⟨v, -, hfv, htv, hout⟩ |
        ⟨v, -, hfv, htv, hdttl', hout⟩ | ⟨v, rec, -, hfv, htv, hdttl', hrec, hout⟩
    · exact absurd hexp (hne rec hf)
    · rw [hout]
    · rw [hout]
    · rw [hout]
    · rw [hdttl'] at hdttl
      cases hdttl
  · intro now s k v rec out hdttl hfv htv hrec hfresh h
    rcases get_ok_cases h with
        ⟨rec', hf', hexp', hout⟩ | ⟨-, hfv', hout⟩ | ⟨v', -, hfv', htv', hout⟩ |
        ⟨v', -, hfv', htv', hdttl', hout⟩ | ⟨v', rec', -, hfv', htv', hdttl', hrec', hout⟩
    · rw [hrec] at hf'
      injection hf' with hf'
      rw [← hf'] at hexp'
      exact absurd hexp' hfresh
    · rw [hfv] at hfv'
      cases hfv'
    · rw [hfv] at hfv'
      injection hfv' with hfv'
      rw [← hfv'] at htv'
      rw [htv] at htv'
      cases htv'
    · rw [hdttl'] at hdttl
      cases hdttl
    · rw [hrec] at hrec'
      injection hrec' with hrec'
      rw [hout, ← hrec']
  · intro now s k out hne h
    rcases peek_ok_cases h with ⟨rec, hf, hexp, hout⟩ | ⟨-, hout⟩
    · exact absurd hexp (hne rec hf)
    · rw [hout]
  · intro now s k out hne h
    rcases has_ok_cases h with ⟨rec, hf, hexp, hout⟩ | ⟨-, hout⟩
    · exact absurd hexp (hne rec hf)
    · rw [hout]

/-- C4 witness: with a cache-wide default TTL, a `get` at +50 of a
record `{ttl := 100, expiresAt := 100}` rewrites it to
`{ttl := 100, expiresAt := 150}`. -/
theorem c4_ttl_refresh_witness :
    (⟨1, [("a", 1)], [("a", ⟨100, 150⟩)], ⟨1, 0, 0, 1⟩, some 100, false, false⟩ :
      CacheState String Int).ttlMap =
      alSet [("a", ⟨100, 100⟩)] "a" ⟨100, 50 + 100⟩ :=
  (c4_ttl_refresh JInt).2.1 50
    ⟨1, [("a", 1)], [("a", ⟨100, 100⟩)], ⟨0, 0, 0, 0⟩, some 100, false, false⟩
    "a" 1 ⟨100, 100⟩
    (⟨1, [("a", 1)], [("a", ⟨100, 150⟩)], ⟨1, 0, 0, 1⟩, some 100, false, false⟩,
      [], some 1)
    rfl rfl rfl rfl (by decide) rfl

/-- C6 counterexample: `get` of a present key whose stored value is the
falsy `0` does not promote it — the order is unchanged and the last key
is still "b", so "moves it to the last position for any stored value"
is false (the access is even counted as a miss). -/
theorem c6_falsy_get_no_promotion :
    get JInt 0 ⟨2, [("a", 0), ("b", 2)], [], ⟨0, 0, 0, 0⟩, none, false, false⟩ "a" =
      .ok (⟨2, [("a", 0), ("b", 2)], [], ⟨0, 1, 0, 1⟩, none, false, false⟩, [], some 0) ∧
    (alKeys ((⟨2, [("a", 0), ("b", 2)], [], ⟨0, 1, 0, 1⟩, none, false, false⟩ :
      CacheState String Int).map)).getLast? = some "b" ∧
    ¬ (alKeys ((⟨2, [("a", 0), ("b", 2)], [], ⟨0, 1, 0, 1⟩, none, false, false⟩ :
      CacheState String Int).map)).getLast? = some "a" :=
  ⟨rfl, rfl, by decide⟩

/-- C6 (amended): `get` on a present, non-expired key moves it to the
last position when its value is JS-truthy; when the value is falsy the
order (indeed the whole map) is unchanged; `peek` and `has` never
change the map of a non-expired key. -/
theorem c6_get_promotes_truthy {K V : Type} [DecidableEq K] (J : JsModel K V) :
    (∀ (now : Nat) (s : CacheState K V) (k : K) (v : V) out,
      NotExpired s k now → alFind s.map k = some v → J.tv v = true →
      get J now s k = .ok out → out.1.map = alErase s.map k ++ [(k, v)]) ∧
    (∀ (now : Nat) (s : CacheState K V) (k : K) (v : V) out,
      NotExpired s k now → alFind s.map k = some v → J.tv v = false →
      get J now s k = .ok out → out.1.map = s.map) ∧
    (∀ (now : Nat) (s : CacheState K V) (k : K) out,
      NotExpired s k now → peek J now s k = .ok out → out.1.map = s.map) ∧
    (∀ (now : Nat) (s : CacheState K V) (k : K) out,
      NotExpired s k now → has J now s k = .ok out → out.1.map = s.map) := by
  refine ⟨?_, ?_, ?_, ?_⟩
  · intro now s k v out hne hfv htv h
    rcases get_ok_cases h with
        ⟨rec, hf, hexp, hout⟩ | ⟨-, hfv', hout⟩ | ⟨v', -, hfv', htv', hout⟩ |
        ⟨v', -, hfv', htv', hdttl', hout⟩ | ⟨v', rec', -, hfv', htv', hdttl', hrec', hout⟩
    · exact absurd hexp (hne rec hf)
    · rw [hfv] at hfv'
      cases hfv'
    · rw [hfv] at hfv'
      injection hfv' with hfv'
      rw [← hfv'] at htv'
      rw [htv] at htv'
      cases htv'
    · rw [hfv] at hfv'
      injection hfv' with hfv'
      rw [hout, ← hfv']
    · rw [hfv] at hfv'
      injection hfv' with hfv'
      rw [hout, ← hfv']
  · intro now s k v out hne hfv htv h
    rcases get_ok_cases h with
        ⟨rec, hf, hexp, hout⟩ | ⟨-, hfv', hout⟩ | ⟨v', -, hfv', htv', hout⟩ |
        ⟨v', -, hfv', htv', hdttl', hout⟩ | ⟨v', rec', -, hfv', htv', hdttl', hrec', hout⟩
    · exact absurd hexp (hne rec hf)
    · rw [hout]
    · rw [hout]
    · rw [hfv] at hfv'
      injection hfv' with hfv'
      rw [← hfv'] at htv'
      rw [htv] at htv'
      cases htv'
    · rw [hfv] at hfv'
      injection hfv' with hfv'
      rw [← hfv'] at htv'
      rw [htv] at htv'
      cases htv'
  · intro now s k out hne h
    rcases peek_ok_cases h with ⟨rec, hf, hexp, hout⟩ | ⟨-, hout⟩
    · exact absurd hexp (hne rec hf)
    · rw [hout]
  · intro now s k out hne h
    rcases has_ok_cases h with ⟨rec, hf, hexp, hout⟩ | ⟨-, hout⟩
    · exact absurd hexp (hne rec hf)
    · rw [hout]

/-- C6 witness: the spec's example — after put a→1, put b→2, a `get(a)`
moves "a" to the last position. -/
theorem c6_get_promotes_truthy_witness :
    (⟨2, [("b", 2), ("a", 1)], [], ⟨1, 0, 0, 1⟩, none, false, false⟩ :
      CacheState String Int).map =
      alErase [("a", 1), ("b", 2)] "a" ++ [("a", 1)] :=
  (c6_get_promotes_truthy JInt).1 0
    ⟨2, [("a", 1), ("b", 2)], [], ⟨0, 0, 0, 0⟩, none, false, false⟩ "a" 1
    (⟨2, [("b", 2), ("a", 1)], [], ⟨1, 0, 0, 1⟩, none, false, false⟩, [], some 1)
    (fun rec hrec => by cases hrec) rfl rfl rfl

/-- C7 counterexample: a reactive TTL eviction during `get` that
removes the last remaining entry leaves size 0 but fires no `Empty`
event (the trace holds only the Eviction), so "every operation that
removes the last remaining entry fires Empty" is false. -/
theorem c7_ttl_eviction_no_empty :
    get JInt 200 ⟨1, [("a", 1)], [("a", ⟨100, 100⟩)], ⟨0, 0, 0, 0⟩, none, false, false⟩ "a" =
      .ok (⟨1, [], [], ⟨0, 1, 0, 1⟩, none, false, false⟩,
        [(CacheEvent.eviction, some ("a", 1))], none) ∧
    (⟨1, [], [], ⟨0, 1, 0, 1⟩, none, false, false⟩ :
      CacheState String Int).map.length = 0 ∧
    ¬ (CacheEvent.empty, (none : Option (String × Int))) ∈
      [((CacheEvent.eviction : CacheEvent), some (("a", 1) : String × Int))] :=
  ⟨rfl, rfl, by decide⟩

/-- C7 (amended): `Full` fires exactly when a `put` leaves
`size == capacity` — no other operation (`get`/`peek`/`has`,
`remove`, `clear`, `resize`, the proactive sweep) ever fires it — and
`Empty` fires exactly when a `remove` leaves `size == 0` or a `clear`
completes; in particular a reactive TTL eviction during get/peek/has
fires no `Empty` even when it empties the cache, and `resize` and the
sweep fire neither event. -/
theorem c7_full_empty_events {K V : Type} [DecidableEq K] (J : JsModel K V)
    (pol : Policy K V) :
    (∀ (now : Nat) (s : CacheState K V) (k : K) (v : V) (t : Option Nat) out,
      put J pol now s k v t = .ok out →
      ((CacheEvent.full, (none : Option (K × V))) ∈ out.2.1 ↔
        out.1.map.length = out.1.capacity)) ∧
    (∀ (now : Nat) (s : CacheState K V) (k : K) (v : V) (t : Option Nat) out
      (e : Ev K V), put J pol now s k v t = .ok out → e ∈ out.2.1 →
      e.1 ≠ CacheEvent.empty) ∧
    (∀ (s : CacheState K V) (k : K) out,
      remove J s k = .ok out →
      ((CacheEvent.empty, (none : Option (K × V))) ∈ out.2.1 ↔
        out.1.map.length = 0)) ∧
    (∀ (hrh : Bool) (s : CacheState K V) out,
      clear J hrh s = .ok out →
      (CacheEvent.empty, (none : Option (K × V))) ∈ out.2.1 ∧
        out.1.map.length = 0) ∧
    (∀ (now : Nat) (s : CacheState K V) (k : K) out (e : Ev K V),
      get J now s k = .ok out → e ∈ out.2.1 →
      e.1 ≠ CacheEvent.empty ∧ e.1 ≠ CacheEvent.full) ∧
    (∀ (now : Nat) (s : CacheState K V) (k : K) out (e : Ev K V),
      peek J now s k = .ok out → e ∈ out.2.1 →
      e.1 ≠ CacheEvent.empty ∧ e.1 ≠ CacheEvent.full) ∧
    (∀ (now : Nat) (s : CacheState K V) (k : K) out (e : Ev K V),
      has J now s k = .ok out → e ∈ out.2.1 →
      e.1 ≠ CacheEvent.empty ∧ e.1 ≠ CacheEvent.full) ∧
    (∀ (s : CacheState K V) (cap : Nat) out (e : Ev K V),
      resize J pol s cap = .ok out → e ∈ out.2.1 →
      e.1 ≠ CacheEvent.empty ∧ e.1 ≠ CacheEvent.full) ∧
    (∀ (s : CacheState K V) (k : K) out (e : Ev K V),
      remove J s k = .ok out → e ∈ out.2.1 → e.1 ≠ CacheEvent.full) ∧
    (∀ (hrh : Bool) (s : CacheState K V) out (e : Ev K V),
      clear J hrh s = .ok out → e ∈ out.2.1 → e.1 ≠ CacheEvent.full) ∧
    (∀ (now : Nat) (s : CacheState K V) out (e : Ev K V),
      ttlSweep J now s = .ok out → e ∈ out.2 →
      e.1 ≠ CacheEvent.empty ∧ e.1 ≠ CacheEvent.full) := by
  have hput_evs : ∀ (now : Nat) (s : CacheState K V) (k : K) (v : V)
      (t : Option Nat) out (e : Ev K V), put J pol now s k v t = .ok out →
      e ∈ out.2.1 →
      e ∈ (putStep1 J pol s k).2 ∨ e.1 = CacheEvent.insertion ∨
        e = (CacheEvent.full, none) := by
    intro now s k v t out e h he
    obtain ⟨-, hevs, -⟩ := put_ok_elim h
    rw [hevs] at he
    split at he
    · rcases List.mem_append.mp he with he' | he'
      · rcases List.mem_append.mp he' with he'' | he''
        · exact Or.inl he''
        · rw [List.mem_singleton] at he''
          exact Or.inr (Or.inl (by rw [he'']))
      · rw [List.mem_singleton] at he'
        exact Or.inr (Or.inr he')
    · rcases List.mem_append.mp he with he' | he'
      · exact Or.inl he'
      · rw [List.mem_singleton] at he'
        exact Or.inr (Or.inl (by rw [he']))
  refine ⟨?_, ?_, ?_, ?_, ?_, ?_, ?_, ?_, ?_, ?_, ?_⟩
  · intro now s k v t out h
    obtain ⟨hfin, hevs, -⟩ := put_ok_elim h
    rw [hevs, hfin]
    constructor
    · intro hmem
      split at hmem
      next hcond => exact hcond
      next hcond =>
        exfalso
        rcases List.mem_append.mp hmem with he' | he'
        · have := putStep1_events J pol s k _ he'
          simp at this
        · rw [List.mem_singleton] at he'
          injection he' with he'
          cases he'
    · intro hcond
      rw [if_pos hcond]
      exact List.mem_append_right _ (List.mem_singleton.mpr rfl)
  · intro now s k v t out e h he
    rcases hput_evs now s k v t out e h he with hm | hm | hm
    · rw [putStep1_events J pol s k e hm]
      simp
    · rw [hm]
      simp
    · rw [hm]
      simp
  · intro s k out h
    obtain ⟨hout, hevs, -⟩ := remove_ok_elim h
    rw [hevs, hout]
    simp only
    constructor
    · intro hmem
      split at hmem
      next hcond => exact hcond
      next hcond =>
        rw [List.mem_singleton] at hmem
        injection hmem with hmem
        cases hmem
    · intro hcond
      rw [if_pos hcond]
      simp
  · intro hrh s out h
    obtain ⟨hout, hevs⟩ := clear_ok_elim h
    rw [hevs, hout]
    exact ⟨List.mem_append_right _ (List.mem_singleton.mpr rfl), rfl⟩
  · intro now s k out e h he
    rcases get_ok_cases h with
        ⟨rec, hf, hexp, hout⟩ | ⟨-, -, hout⟩ | ⟨v, -, -, -, hout⟩ |
        ⟨v, -, -, -, -, hout⟩ | ⟨v, rec, -, -, -, -, -, hout⟩ <;>
      rw [hout] at he <;> first
      | (rw [List.mem_singleton] at he
         rw [he]
         exact ⟨by simp, by simp⟩)
      | cases he
  · intro now s k out e h he
    rcases peek_ok_cases h with ⟨rec, hf, hexp, hout⟩ | ⟨-, hout⟩ <;>
      rw [hout] at he <;> first
      | (rw [List.mem_singleton] at he
         rw [he]
         exact ⟨by simp, by simp⟩)
      | cases he
  · intro now s k out e h he
    rcases has_ok_cases h with ⟨rec, hf, hexp, hout⟩ | ⟨-, hout⟩ <;>
      rw [hout] at he <;> first
      | (rw [List.mem_singleton] at he
         rw [he]
         exact ⟨by simp, by simp⟩)
      | cases he
  · intro s cap out e h he
    obtain ⟨-, -, hevs⟩ := resize_ok_elim h
    rw [hevs] at he
    rcases resizeLoop_events J pol _ _ _ e he with hm | hm
    · cases hm
    · rw [hm]
      exact ⟨by simp, by simp⟩
  · intro s k out e h he
    obtain ⟨-, hevs, -⟩ := remove_ok_elim h
    rw [hevs] at he
    split at he
    · rcases List.mem_cons.mp he with he1 | he1
      · rw [he1]
        simp
      · rw [List.mem_singleton] at he1
        rw [he1]
        simp
    · rw [List.mem_singleton] at he
      rw [he]
      simp
  · intro hrh s out e h he
    obtain ⟨-, hevs⟩ := clear_ok_elim h
    rw [hevs] at he
    rcases List.mem_append.mp he with he1 | he1
    · split at he1
      · obtain ⟨p, hp, hpe⟩ := List.mem_map.mp he1
        rw [← hpe]
        simp
      · cases he1
    · rw [List.mem_singleton] at he1
      rw [he1]
      simp
  · intro now s out e h he
    have hkind := ttlSweepKeys_events h e he
    rw [hkind]
    exact ⟨by simp, by simp⟩

/-- C7 witness: a `put` that fills a capacity-1 cache fires `Full`
(iff the final size equals the capacity), and a `remove` that empties
it fires `Empty` (iff the final size is 0). -/
theorem c7_full_empty_events_witness :
    ((CacheEvent.full, (none : Option (String × Int))) ∈
        [(CacheEvent.insertion, some (("a", 1) : String × Int)),
         (CacheEvent.full, none)] ↔
      (⟨1, [("a", 1)], [], ⟨0, 0, 0, 0⟩, none, false, false⟩ :
        CacheState String Int).map.length =
      (⟨1, [("a", 1)], [], ⟨0, 0, 0, 0⟩, none, false, false⟩ :
        CacheState String Int).capacity) ∧
    ((CacheEvent.empty, (none : Option (String × Int))) ∈
        [(CacheEvent.removal, some (("a", 1) : String × Int)),
         (CacheEvent.empty, none)] ↔
      (⟨1, [], [], ⟨0, 0, 0, 0⟩, none, false, false⟩ :
        CacheState String Int).map.length = 0) :=
  ⟨(c7_full_empty_events JInt defaultPolicy).1 0
      ⟨1, [], [], ⟨0, 0, 0, 0⟩, none, false, false⟩ "a" 1 none
      (⟨1, [("a", 1)], [], ⟨0, 0, 0, 0⟩, none, false, false⟩,
        [(CacheEvent.insertion, some ("a", 1)), (CacheEvent.full, none)], ()) rfl,
    (c7_full_empty_events JInt defaultPolicy).2.2.1
      ⟨1, [("a", 1)], [], ⟨0, 0, 0, 0⟩, none, false, false⟩ "a"
      (⟨1, [], [], ⟨0, 0, 0, 0⟩, none, false, false⟩,
        [(CacheEvent.removal, some ("a", 1)), (CacheEvent.empty, none)], ()) rfl⟩

/-- C8 counterexample: inserting the present entry "a" → 0 emits
`Insertion` with NO key/value pair (the payload is `undefined` because
`key && value` is falsy for the value 0), so "the pair is omitted only
for Full and Empty" is false. -/
theorem c8_falsy_payload :
    put JInt defaultPolicy 0 ⟨1, [], [], ⟨0, 0, 0, 0⟩, none, false, false⟩ "a" 0 none =
      .ok (⟨1, [("a", 0)], [], ⟨0, 0, 0, 0⟩, none, false, false⟩,
        [(CacheEvent.insertion, none), (CacheEvent.full, none)], ()) ∧
    alFind [("a", (0 : Int))] "a" = some 0 ∧
    emitItem JInt (some "a") (some (0 : Int)) = none :=
  ⟨rfl, rfl, rfl⟩

/-- C8 (amended): `emit` invokes every registered handler in
registration order (`on` appends; dispatch preserves list order) and
passes the kind plus an optional pair, but the pair is omitted not only
for `Full`/`Empty`: it is present exactly when both the key and the
value are supplied and JS-truthy, so falsy keys or values (0, "") lose
their payload; `put` emits `Insertion` with exactly that payload,
`put`'s policy eviction, `remove` and `#ttlEvict` emit
`Eviction`/`Removal` with the present entry's pair under the same
truthiness rule, and `clear` does so for every entry when a Removal
handler is registered. -/
theorem c8_emit_dispatch {K V : Type} [DecidableEq K] (J : JsModel K V) :
    (∀ (hs : List Nat) (h : Nat) (e : Ev K V),
      dispatch (onRegister hs h) e = dispatch hs e ++ [(h, e)]) ∧
    (∀ (hs : List Nat) (e : Ev K V), (dispatch hs e).map Prod.fst = hs) ∧
    (∀ (k : K) (v : V),
      emitItem J (some k) (some v) = some (k, v) ↔
        J.tk k = true ∧ J.tv v = true) ∧
    (∀ (v? : Option V), emitItem J none v? = none) ∧
    (∀ (k? : Option K), emitItem J k? none = none) ∧
    (∀ (pol : Policy K V) (now : Nat) (s : CacheState K V) (k : K) (v : V)
      (t : Option Nat) out, put J pol now s k v t = .ok out →
      (CacheEvent.insertion, emitItem J (some k) (some v)) ∈ out.2.1) ∧
    (∀ (pol : Policy K V) (now : Nat) (s : CacheState K V) (k : K) (v : V)
      (t : Option Nat) out (victim : K) (w : V),
      put J pol now s k v t = .ok out →
      alHas s.map k = false → s.map.length = s.capacity →
      pol s = some victim → alFind s.map victim = some w →
      (CacheEvent.eviction, emitItem J (some victim) (some w)) ∈ out.2.1) ∧
    (∀ (s : CacheState K V) (k : K) (w : V) out,
      remove J s k = .ok out → alFind s.map k = some w →
      (CacheEvent.removal, emitItem J (some k) (some w)) ∈ out.2.1) ∧
    (∀ (now : Nat) (s : CacheState K V) (k : K) (w : V) r,
      ttlEvict J now s k = .ok r → r.2.2 = true → alFind s.map k = some w →
      (CacheEvent.eviction, emitItem J (some k) (some w)) ∈ r.2.1) ∧
    (∀ (hrh : Bool) (s : CacheState K V) out (p : K × V),
      clear J hrh s = .ok out → hrh = true → p ∈ s.map →
      (CacheEvent.removal, emitItem J (some p.1) (some p.2)) ∈ out.2.1) := by
  refine ⟨?_, ?_, ?_, ?_, ?_, ?_, ?_, ?_, ?_, ?_⟩
  · intro hs h e
    simp [dispatch, onRegister]
  · intro hs e
    simp only [dispatch, List.map_map]
    exact List.map_id'' (fun x => rfl) hs
  · intro k v
    unfold emitItem
    by_cases htk : J.tk k
    · by_cases htv : J.tv v
      · simp [htk, htv]
      · simp [htk, htv]
    · simp [htk]
  · intro v?
    rfl
  · intro k?
    cases k? <;> rfl
  · intro pol now s k v t out h
    obtain ⟨-, hevs, -⟩ := put_ok_elim h
    rw [hevs]
    split
    · exact List.mem_append_left _
        (List.mem_append_right _ (List.mem_singleton.mpr rfl))
    · exact List.mem_append_right _ (List.mem_singleton.mpr rfl)
  · intro pol now s k v t out victim w h hhas hfull hvic hw
    obtain ⟨-, hevs, -⟩ := put_ok_elim h
    have hstep : (putStep1 J pol s k).2 =
        [(CacheEvent.eviction, emitItem J (some victim) (some w))] := by
      rcases putStep1_cases J pol s k with
          ⟨hhas', -⟩ | ⟨-, -, victim', hvic', hstep⟩ |
          ⟨-, -, hpnone, -⟩ | ⟨-, hnfull, -⟩
      · rw [hhas'] at hhas
        cases hhas
      · rw [hvic] at hvic'
        injection hvic' with hvic'
        rw [hstep]
        simp only
        rw [← hvic', hw]
      · rw [hvic] at hpnone
        cases hpnone
      · exact absurd hfull hnfull
    rw [hevs]
    split
    · exact List.mem_append_left _ (List.mem_append_left _
        (by rw [hstep]; exact List.mem_singleton.mpr rfl))
    · exact List.mem_append_left _
        (by rw [hstep]; exact List.mem_singleton.mpr rfl)
  · intro s k w out h hw
    obtain ⟨-, hevs, -⟩ := remove_ok_elim h
    rw [hevs, hw]
    split
    · exact List.mem_cons_self _ _
    · exact List.mem_singleton.mpr rfl
  · intro now s k w r h hb hw
    obtain ⟨rec, -, -, hr⟩ := ttlEvict_evicted h hb
    rw [hr]
    simp only
    rw [hw]
    exact List.mem_singleton.mpr rfl
  · intro hrh s out p h hhrh hp
    obtain ⟨-, hevs⟩ := clear_ok_elim h
    subst hhrh
    rw [hevs]
    simp only [if_true]
    exact List.mem_append_left _ (List.mem_map_of_mem _ hp)

/-- C8 witness: registering a fourth handler appends it (dispatch
reaches it last), and a truthy insertion "a" → 1 carries its pair. -/
theorem c8_emit_dispatch_witness :
    dispatch (onRegister [0, 1, 2] 3)
        ((CacheEvent.insertion, some (("a", 1) : String × Int)) : Ev String Int) =
      dispatch [0, 1, 2] ((CacheEvent.insertion, some ("a", 1)) : Ev String Int) ++
        [(3, (CacheEvent.insertion, some ("a", 1)))] ∧
    ((CacheEvent.insertion, emitItem JInt (some "a") (some (1 : Int))) ∈
      [(CacheEvent.insertion, some (("a", 1) : String × Int)),
       (CacheEvent.full, (none : Option (String × Int)))]) :=
  ⟨(c8_emit_dispatch JInt).1 [0, 1, 2] 3 (CacheEvent.insertion, some ("a", 1)),
    (c8_emit_dispatch JInt).2.2.2.2.2.1 defaultPolicy 0
      ⟨1, [], [], ⟨0, 0, 0, 0⟩, none, false, false⟩ "a" 1 none
      (⟨1, [("a", 1)], [], ⟨0, 0, 0, 0⟩, none, false, false⟩,
        [(CacheEvent.insertion, some ("a", 1)), (CacheEvent.full, none)], ()) rfl⟩

/-- C9 is a code bug: the spec promises `get` never raises, but when
the cache-wide default TTL is set after an entry was inserted without a
TTL record, `get` on that entry dereferences
`this.#ttlMap.get(key)!.ttl` on `undefined` and throws a TypeError.
Concretely: insert "a" with no TTL, set `ttl = 100`, then `get("a")`. -/
theorem c9_get_typeerror_bug :
    put JInt defaultPolicy 0 ⟨2, [], [], ⟨0, 0, 0, 0⟩, none, false, false⟩ "a" 1 none =
      .ok (⟨2, [("a", 1)], [], ⟨0, 0, 0, 0⟩, none, false, false⟩,
        [(CacheEvent.insertion, some ("a", 1))], ()) ∧
    setTtl (⟨2, [("a", 1)], [], ⟨0, 0, 0, 0⟩, none, false, false⟩ : CacheState String Int)
        (some 100) =
      ⟨2, [("a", 1)], [], ⟨0, 0, 0, 0⟩, some 100, false, false⟩ ∧
    get JInt 5 ⟨2, [("a", 1)], [], ⟨0, 0, 0, 0⟩, some 100, false, false⟩ "a" =
      .error .typeError := by
  refine ⟨rfl, rfl, rfl⟩

/-- C10: with autoPersist enabled and no persistence adapter bound,
every operation that reaches the auto-persist step throws the
"Persistence is not set" error rather than completing silently: every
`put`, every truthy-hit `get` whose TTL bookkeeping does not crash
first, every `remove` and `clear`, every valid `resize`, and every
reactive TTL eviction. -/
theorem c10_autopersist_throws {K V : Type} [DecidableEq K] (J : JsModel K V)
    (pol : Policy K V) :
    (∀ (now : Nat) (s : CacheState K V) (k : K) (v : V) (t : Option Nat),
      s.autoPersist = true → s.hasPersistence = false →
      put J pol now s k v t = .error .persistenceNotSet) ∧
    (∀ (now : Nat) (s : CacheState K V) (k : K) (v : V),
      s.autoPersist = true → s.hasPersistence = false →
      alFind s.map k = some v → J.tv v = true → NotExpired s k now →
      (natTruthy s.dttl = true → (alFind s.ttlMap k).isSome = true) →
      get J now s k = .error .persistenceNotSet) ∧
    (∀ (s : CacheState K V) (k : K),
      s.autoPersist = true → s.hasPersistence = false →
      remove J s k = .error .persistenceNotSet) ∧
    (∀ (hrh : Bool) (s : CacheState K V),
      s.autoPersist = true → s.hasPersistence = false →
      clear J hrh s = .error .persistenceNotSet) ∧
    (∀ (s : CacheState K V) (cap : Nat),
      s.autoPersist = true → s.hasPersistence = false → cap ≠ 0 →
      resize J pol s cap = .error .persistenceNotSet) ∧
    (∀ (now : Nat) (s : CacheState K V) (k : K) (rec : TTLRec),
      s.autoPersist = true → s.hasPersistence = false →
      alFind s.ttlMap k = some rec → now > rec.expiresAt →
      ttlEvict J now s k = .error .persistenceNotSet) ∧
    JsErr.persistenceNotSet.message = "Persistence is not set" := by
  refine ⟨?_, ?_, ?_, ?_, ?_, ?_, rfl⟩
  · intro now s k v t hap hp
    have herr : autoPersistStep (putFinal J pol now s k v t) =
        .error .persistenceNotSet :=
      autoPersistStep_error
        (((putFinal_fields J pol now s k v t).2.2.1).trans hap)
        (((putFinal_fields J pol now s k v t).2.2.2.1).trans hp)
    simp only [put, herr]
  · intro now s k v hap hp hfv htv hne hrec
    have hte : ttlEvict J now
        { s with stats := { s.stats with access := s.stats.access + 1 } } k =
        .ok ({ s with stats := { s.stats with access := s.stats.access + 1 } },
          [], false) :=
      ttlEvict_fresh hne
    simp only [get, hte, hfv, htv, if_true]
    by_cases hd : natTruthy s.dttl = true
    · obtain ⟨rec, hr⟩ := Option.isSome_iff_exists.mp (hrec hd)
      have herr : autoPersistStep
          { s with
            map := alErase s.map k ++ [(k, v)]
            ttlMap := alSet s.ttlMap k ⟨rec.ttl, now + rec.ttl⟩
            stats := { s.stats with access := s.stats.access + 1 } } =
          .error .persistenceNotSet :=
        autoPersistStep_error hap hp
      simp only [hd, if_true, hr, getHitTail, herr]
    · have hd' : natTruthy s.dttl = false := by simpa using hd
      have herr : autoPersistStep
          { s with
            map := alErase s.map k ++ [(k, v)]
            stats := { s.stats with access := s.stats.access + 1 } } =
          .error .persistenceNotSet :=
        autoPersistStep_error hap hp
      simp only [hd', Bool.false_eq_true, if_false, getHitTail, herr]
  · intro s k hap hp
    have herr : autoPersistStep
        { s with map := alErase s.map k, ttlMap := alErase s.ttlMap k } =
        .error .persistenceNotSet :=
      autoPersistStep_error hap hp
    simp only [remove, herr]
  · intro hrh s hap hp
    have herr : autoPersistStep
        ({ s with map := [], ttlMap := [] } : CacheState K V) =
        .error .persistenceNotSet :=
      autoPersistStep_error hap hp
    simp only [clear, herr]
  · intro s cap hap hp hcap
    have herr : autoPersistStep
        (resizeLoop J pol s.map.length { s with capacity := cap } []).1 =
        .error .persistenceNotSet :=
      autoPersistStep_error
        (((resizeLoop_fields J pol _ _ _).2.2.2.2.1).trans hap)
        (((resizeLoop_fields J pol _ _ _).2.2.2.2.2).trans hp)
    simp only [resize, if_neg (by omega : ¬ cap < 1), herr]
  · intro now s k rec hap hp hf hexp
    have herr : autoPersistStep
        { s with map := alErase s.map k, ttlMap := alErase s.ttlMap k } =
        .error .persistenceNotSet :=
      autoPersistStep_error hap hp
    unfold ttlEvict
    rw [hf]
    simp only
    rw [if_pos hexp, herr]

/-- C10 witness: on a cache with `autoPersist = true` and no adapter,
a `put` and a `remove` both throw "Persistence is not set". -/
theorem c10_autopersist_throws_witness :
    put JInt defaultPolicy 0 ⟨1, [], [], ⟨0, 0, 0, 0⟩, none, true, false⟩ "a" 1 none =
      .error .persistenceNotSet ∧
    remove JInt ⟨1, [("a", 1)], [], ⟨0, 0, 0, 0⟩, none, true, false⟩ "a" =
      .error .persistenceNotSet ∧
    JsErr.persistenceNotSet.message = "Persistence is not set" :=
  ⟨(c10_autopersist_throws JInt defaultPolicy).1 0
      ⟨1, [], [], ⟨0, 0, 0, 0⟩, none, true, false⟩ "a" 1 none rfl rfl,
    (c10_autopersist_throws JInt defaultPolicy).2.2.1
      ⟨1, [("a", 1)], [], ⟨0, 0, 0, 0⟩, none, true, false⟩ "a" rfl rfl,
    (c10_autopersist_throws JInt defaultPolicy).2.2.2.2.2.2⟩

end CacheSpec
